import Mathlib

/-!
Verification of the schema-grounding pipeline of `graph_text2sql`.

This file gives a shallow embedding of the core pipeline components —
`KeywordExtractor` (`src/entity_linking/keyword_extractor.py`),
`EntityMatcher` (`src/entity_linking/entity_matcher.py`),
`ConceptExtractor.match_concept_to_query` (`src/graph_builder/concept_extractor.py`),
`SubgraphRetriever` (`src/graph_query/subgraph_retriever.py`),
`SchemaPruner` (`src/graph_query/schema_pruner.py`) and
`SimpleCache` (`src/utils.py`) — and proves properties of the embedding.

Modelling conventions, used consistently below:
* Scores that the Python code stores as floats (1.0, 0.9, 0.85, 0.5 + 0.05·len, …)
  are represented exactly as natural numbers in hundredths (100, 90, 85, 50 + 5·len, …).
  Every score constant in the source is a multiple of 0.05, so this scaling is exact,
  and the similarity threshold comparisons are order-isomorphic to the float ones.
* Python dicts are modelled as insertion-ordered association lists (a dict preserves
  insertion order; updating an existing key keeps its position), `sorted(..., reverse=True)`
  as a stable descending insertion sort, and timestamps as explicit natural numbers
  threaded through the cache operations.
* External collaborators are parameters: the Neo4j store is a record of query functions
  returning `Except` (its `execute_query` re-raises errors, `src/database.py`),
  `difflib.SequenceMatcher(...).ratio()` is an abstract similarity function, and the
  optional spaCy pipeline is an abstract document (entities / noun chunks / tokens).
* CPython's `set` iteration order for strings is unspecified (hash-randomised), so
  `list(set(...))` is modelled by an arbitrary enumeration function constrained to
  produce a duplicate-free list with the same members.
-/

namespace GraphText2Sql

/-! ### Generic list operations modelling Python idioms -/

/-- Keep-first deduplication by a string key with an accumulator of already-seen keys,
as the Python `seen = set(); for ...: if key not in seen: ...` loops do. -/
def dedupByKeyAux {α : Type} (key : α → String) (seen : List String) : List α → List α
  | [] => []
  | x :: xs =>
    if key x ∈ seen then dedupByKeyAux key seen xs
    else x :: dedupByKeyAux key (key x :: seen) xs

/-- Keep-first deduplication by a string key. -/
def dedupByKey {α : Type} (key : α → String) (l : List α) : List α :=
  dedupByKeyAux key [] l

/-- Insert an element coming from earlier in the original list into an already
sorted-descending list: it goes after every element with a ≥ score (stability)
and before the first strictly smaller one. -/
def insertDescBy {α : Type} (score : α → Nat) (x : α) : List α → List α
  | [] => [x]
  | y :: ys => if score y ≤ score x then x :: y :: ys else y :: insertDescBy score x ys

/-- Stable descending sort by a score projection, modelling Python's stable
`sorted(l, key=score, reverse=True)`. A stable sort's output is uniquely determined
by the comparator, so insertion sort is extensionally equal to timsort here. -/
def sortDescBy {α : Type} (score : α → Nat) : List α → List α
  | [] => []
  | x :: xs => insertDescBy score x (sortDescBy score xs)

/-! ### Character-level helpers for the keyword extractor -/

/-- Lower-case an ASCII letter, other characters unchanged (the extractor's alphabet
is ASCII plus CJK, which `str.lower` leaves unchanged). -/
def lowerChar (c : Char) : Char :=
  if 'A' ≤ c ∧ c ≤ 'Z' then Char.ofNat (c.toNat + 32) else c

/-- Python `str.lower` on the extractor's ASCII + CJK alphabet. -/
def pyLower (s : String) : String := ⟨s.data.map lowerChar⟩

/-- Python `str.strip()`: remove leading and trailing whitespace. -/
def pyStrip (s : String) : String :=
  ⟨((s.data.dropWhile Char.isWhitespace).reverse.dropWhile Char.isWhitespace).reverse⟩

/-- A CJK ideograph, the `[一-龥]` character class of the source regexes. -/
def isCJK (c : Char) : Bool := 0x4e00 ≤ c.toNat && c.toNat ≤ 0x9fa5

/-- A regex word character (`\w`) over the extractor's ASCII + CJK alphabet:
alphanumerics, underscore, and CJK ideographs. -/
def isWordChar (c : Char) : Bool := c.isAlphanum || c == '_' || isCJK c

/-- Substring containment on character lists, modelling Python's `in` on strings
(the empty needle is contained in everything). -/
def listIsInfix (n : List Char) : List Char → Bool
  | [] => n.isEmpty
  | c :: cs => n.isPrefixOf (c :: cs) || listIsInfix n cs

/-- Python `needle in hay` for strings (case-sensitive substring containment). -/
def strContainsSub (hay needle : String) : Bool := listIsInfix needle.data hay.data

/-! ### KeywordExtractor (`src/entity_linking/keyword_extractor.py`) -/

/-- Chinese and English stop words of `KeywordExtractor._load_stopwords`. -/
def stopwords : List String :=
  ["的", "了", "在", "是", "我", "有", "和", "就", "不", "人", "都", "一", "一个",
   "上", "也", "很", "到", "说", "要", "去", "你", "会", "着", "没有", "看", "好",
   "自己", "这", "那",
   "the", "a", "an", "and", "or", "but", "in", "on", "at", "to", "for", "of",
   "with", "by", "from", "as", "is", "was", "are", "were", "been", "be", "have",
   "has", "had", "do", "does", "did"]

/-- Reserved SQL keywords filtered by the extractor (`self.sql_keywords`). -/
def sql_keywords : List String :=
  ["select", "from", "where", "and", "or", "order", "by", "group", "having",
   "limit", "join", "left", "right", "inner", "outer", "on", "as", "in", "not",
   "like", "between", "is", "null"]

/-- Inclusion filter `KeywordExtractor._should_include`: reject the empty string,
texts whose lowered-stripped form is shorter than 2 characters, stop words,
reserved SQL keywords, and pure punctuation (`^[^\w一-龥]+$`). -/
def should_include (text : String) : Bool :=
  let tl := pyStrip (pyLower text)
  if tl = "" then false
  else if tl.length < 2 then false
  else if stopwords.contains tl then false
  else if sql_keywords.contains tl then false
  else if text ≠ "" && text.data.all (fun c => !isWordChar c) then false
  else true

/-- An extracted keyword: text, type tag and score (in hundredths). The Python
dict field `type` is kept as the field name. -/
structure Keyword where
  text : String
  type : String
  score : Nat
deriving DecidableEq, Repr

/-- One pass of `re.finditer`/`re.findall` driven by a match-at-position function:
on a match of length `n` (all the source patterns match at least one character)
scanning continues after the match, on failure it advances one character.
The fuel is the remaining text length, which step-wise consumption never exhausts. -/
def scanAux (matchAt : List Char → Option Nat) : Nat → List Char → List (List Char)
  | 0, _ => []
  | _, [] => []
  | fuel + 1, c :: cs =>
    match matchAt (c :: cs) with
    | some n => (c :: cs).take n :: scanAux matchAt fuel ((c :: cs).drop n)
    | none => scanAux matchAt fuel cs

/-- All non-overlapping matches of a pattern in a string, in positional order. -/
def finditer (matchAt : List Char → Option Nat) (s : String) : List String :=
  (scanAux matchAt s.data.length s.data).map (fun l => ⟨l⟩)

/-- Characters of the class `[元|块|万|千|百|个|件|人|天|月|年|次]` (the literal `|`
separators inside a character class are themselves members of the class). -/
def numUnitChars : List Char :=
  ['元', '|', '块', '万', '千', '百', '个', '件', '人', '天', '月', '年', '次']

/-- Characters of the class `[元|块|万]`. -/
def num2UnitChars : List Char := ['元', '|', '块', '万']

/-- Characters of the class `[天|月|年]`. -/
def t4UnitChars : List Char := ['天', '|', '月', '年']

/-- Characters of the location "pattern" `[北京|上海|广州|深圳|杭州|成都|武汉|西安|南京|重庆]`:
a character class, so it matches single characters from this set. -/
def locChars : List Char :=
  ['北', '京', '|', '上', '海', '广', '州', '深', '圳', '杭', '成', '都',
   '武', '汉', '西', '安', '南', '重', '庆']

/-- Match of `\d+[元|块|...|次]` at a position: a maximal digit run followed by a
unit character (backtracking inside `\d+` cannot succeed since digits are not in
the class). -/
def num1At (l : List Char) : Option Nat :=
  let run := l.takeWhile Char.isDigit
  if run.isEmpty then none
  else
    match l.dropWhile Char.isDigit with
    | u :: _ => if numUnitChars.contains u then some (run.length + 1) else none
    | [] => none

/-- Match of `\d+\.\d+[元|块|万]?` at a position. -/
def num2At (l : List Char) : Option Nat :=
  let run1 := l.takeWhile Char.isDigit
  if run1.isEmpty then none
  else
    match l.dropWhile Char.isDigit with
    | '.' :: r2 =>
      let run2 := r2.takeWhile Char.isDigit
      if run2.isEmpty then none
      else
        let base := run1.length + 1 + run2.length
        match r2.dropWhile Char.isDigit with
        | u :: _ => if num2UnitChars.contains u then some (base + 1) else some base
        | [] => some base
    | _ => none

/-- Match of `\d+%` at a position. -/
def num3At (l : List Char) : Option Nat :=
  let run := l.takeWhile Char.isDigit
  if run.isEmpty then none
  else
    match l.dropWhile Char.isDigit with
    | '%' :: _ => some (run.length + 1)
    | _ => none

/-- The relative-time literals of the first time pattern, in alternation order. -/
def timeWords : List String :=
  ["今天", "明天", "昨天", "上周", "本周", "下周", "上月", "本月", "下月",
   "去年", "今年", "明年"]

/-- Match of `(今天|明天|...|明年)` at a position: the first alternative that is a
prefix of the remaining text. -/
def t1At (l : List Char) : Option Nat :=
  (timeWords.find? (fun w => w.data.isPrefixOf l)).map (fun w => w.length)

/-- Match of `\d{4}年\d{1,2}月` at a position (`{1,2}` is greedy). -/
def t2At : List Char → Option Nat
  | a :: b :: c :: d :: y :: rest =>
    if a.isDigit && b.isDigit && c.isDigit && d.isDigit && y == '年' then
      match rest with
      | e :: f :: m :: _ =>
        if e.isDigit && f.isDigit && m == '月' then some 8
        else if e.isDigit && f == '月' then some 7
        else none
      | [e, f] => if e.isDigit && f == '月' then some 7 else none
      | _ => none
    else none
  | _ => none

/-- Match of `\d{1,2}u` (greedy) at a position, returning the consumed length and
the rest of the text. -/
def digitsThen (u : Char) : List Char → Option (Nat × List Char)
  | a :: b :: c :: rest =>
    if a.isDigit && b.isDigit && c == u then some (3, rest)
    else if a.isDigit && b == u then some (2, c :: rest)
    else none
  | [a, b] => if a.isDigit && b == u then some (2, []) else none
  | _ => none

/-- Match of `\d{1,2}月\d{1,2}日` at a position. -/
def t3At (l : List Char) : Option Nat :=
  match digitsThen '月' l with
  | some (n1, rest) =>
    match digitsThen '日' rest with
    | some (n2, _) => some (n1 + n2)
    | none => none
  | none => none

/-- Match of `最近\d+[天|月|年]` at a position. -/
def t4At : List Char → Option Nat
  | a :: b :: rest =>
    if a == '最' && b == '近' then
      let run := rest.takeWhile Char.isDigit
      if run.isEmpty then none
      else
        match rest.dropWhile Char.isDigit with
        | u :: _ => if t4UnitChars.contains u then some (run.length + 3) else none
        | [] => none
    else none
  | _ => none

/-- Match of `[一-龥]{L}` at a position: the next `L` characters all CJK. -/
def cjkAt (L : Nat) (l : List Char) : Option Nat :=
  if (l.take L).length = L && (l.take L).all isCJK then some L else none

/-- Matches of `\b[a-zA-Z]{2,}\b`: maximal ASCII-letter runs of length at least 2
that are not adjacent to another word character. `prev` is the character just
before the current position (none at the start of the text). -/
def engScanAux (prev : Option Char) : Nat → List Char → List (List Char)
  | 0, _ => []
  | _, [] => []
  | fuel + 1, c :: cs =>
    if c.isAlpha then
      let run := (c :: cs).takeWhile Char.isAlpha
      let rest := (c :: cs).dropWhile Char.isAlpha
      let prevOk := match prev with
        | none => true
        | some p => !isWordChar p
      let nextOk := match rest with
        | [] => true
        | r :: _ => !isWordChar r
      if 2 ≤ run.length && prevOk && nextOk then
        run :: engScanAux (some c) fuel rest
      else
        engScanAux (some c) fuel rest
    else
      engScanAux (some c) fuel cs

/-- All `\b[a-zA-Z]{2,}\b` matches of a string, in positional order. -/
def englishWordsOf (s : String) : List String :=
  (engScanAux none s.data.length s.data).map (fun l => ⟨l⟩)

/-- One step of the dict-based merge loops: insert a keyword into the accumulated
insertion-ordered dict, replacing the entry with the same text only when the new
score is strictly higher (the dict keeps the original insertion position). -/
def mergeUpd (acc : List Keyword) (kw : Keyword) : List Keyword :=
  if acc.any (fun e => e.text == kw.text) then
    acc.map (fun e => if e.text == kw.text && e.score < kw.score then kw else e)
  else acc ++ [kw]

/-- The `unique_keywords = {}` / `all_keywords = {}` merge loops: union by text,
keeping the higher score on collision, in first-seen order. -/
def mergeKeywords (l : List Keyword) : List Keyword := l.foldl mergeUpd []

/-- Stage 1 of `_extract_with_regex`: number-and-unit tokens, score 0.9, unfiltered. -/
def regex_number_keywords (text : String) : List Keyword :=
  (finditer num1At text ++ finditer num2At text ++ finditer num3At text).map
    (fun t => { text := t, type := "NUMBER", score := 90 })

/-- Stage 2 of `_extract_with_regex`: time expressions, score 0.85, unfiltered. -/
def regex_time_keywords (text : String) : List Keyword :=
  (finditer t1At text ++ finditer t2At text ++ finditer t3At text ++
      finditer t4At text).map
    (fun t => { text := t, type := "TIME", score := 85 })

/-- Stage 3 of `_extract_with_regex`: single characters of the location character
class, score 0.85, unfiltered. -/
def regex_location_keywords (text : String) : List Keyword :=
  (finditer (fun l => match l with
      | c :: _ => if locChars.contains c then some 1 else none
      | [] => none) text).map
    (fun t => { text := t, type := "LOCATION", score := 85 })

/-- Stage 4 of `_extract_with_regex`: sliding CJK windows of length 6 down to 2,
gated by `_should_include`, score 0.5 + 0.05·length. -/
def regex_chinese_keywords (text : String) : List Keyword :=
  [6, 5, 4, 3, 2].flatMap (fun L =>
    ((finditer (cjkAt L) text).filter should_include).map
      (fun w => { text := w, type := "KEYWORD", score := 50 + L * 5 }))

/-- Stage 5 of `_extract_with_regex`: English words, gated by `_should_include`,
score 0.6. -/
def regex_english_keywords (text : String) : List Keyword :=
  ((englishWordsOf text).filter should_include).map
    (fun w => { text := w, type := "KEYWORD", score := 60 })

/-- The candidate pool of `_extract_with_regex`, stages in source order. -/
def regex_keyword_pool (text : String) : List Keyword :=
  regex_number_keywords text ++ regex_time_keywords text ++
    regex_location_keywords text ++ regex_chinese_keywords text ++
    regex_english_keywords text

/-- Embedding of `KeywordExtractor._extract_with_regex`: the five pattern stages in
source order (the `_should_include` filter applies to stages 4 and 5 only), then
merge keeping the higher score per text, stable descending sort, truncation. -/
def extract_with_regex (text : String) (max_keywords : Nat) : List Keyword :=
  (sortDescBy (fun k => k.score) (mergeKeywords (regex_keyword_pool text))).take
    max_keywords

/-- The output of the external spaCy pipeline on a question: named entities with
labels, noun chunks, and tokens with part-of-speech tags. -/
structure SpacyDoc where
  ents : List (String × String)
  noun_chunks : List String
  tokens : List (String × String)

/-- Named entities of `_extract_with_spacy`: score 1.0, gated by `_should_include`. -/
def spacy_ent_keywords (doc : SpacyDoc) : List Keyword :=
  doc.ents.filterMap (fun e =>
    if should_include e.1 then
      some { text := e.1, type := "ENTITY_" ++ e.2, score := 100 }
    else none)

/-- Noun chunks of `_extract_with_spacy`: stripped, length > 1, score 0.8. -/
def spacy_chunk_keywords (doc : SpacyDoc) : List Keyword :=
  doc.noun_chunks.filterMap (fun ch =>
    if should_include (pyStrip ch) && (pyStrip ch).length > 1 then
      some { text := pyStrip ch, type := "NOUN_PHRASE", score := 80 }
    else none)

/-- Content-word tokens of `_extract_with_spacy`: nouns/proper nouns 0.7, verbs and
adjectives 0.5. -/
def spacy_token_keywords (doc : SpacyDoc) : List Keyword :=
  doc.tokens.filterMap (fun tk =>
    if ["NOUN", "PROPN", "VERB", "ADJ"].contains tk.2 && should_include tk.1 then
      some { text := tk.1, type := tk.2,
             score := if ["NOUN", "PROPN"].contains tk.2 then 70 else 50 }
    else none)

/-- The candidate pool of `_extract_with_spacy`. -/
def spacy_keyword_pool (doc : SpacyDoc) : List Keyword :=
  spacy_ent_keywords doc ++ spacy_chunk_keywords doc ++ spacy_token_keywords doc

/-- Embedding of `KeywordExtractor._extract_with_spacy` over an abstract spaCy
document, followed by merge, sort, truncation. -/
def extract_with_spacy (doc : SpacyDoc) (max_keywords : Nat) : List Keyword :=
  (sortDescBy (fun k => k.score) (mergeKeywords (spacy_keyword_pool doc))).take
    max_keywords

/-- Embedding of `KeywordExtractor.extract` in the default hybrid mode: the spaCy
list when the model is loaded (else empty), the regex list, merged keeping the
maximum score per text, sorted descending by score, truncated to `max_keywords`.
The spacy-only and regex-only dispatch branches are the two sub-functions above. -/
def extract (nlp : Option SpacyDoc) (text : String) (max_keywords : Nat) : List Keyword :=
  (sortDescBy (fun k => k.score) (mergeKeywords
    ((match nlp with
      | some doc => extract_with_spacy doc max_keywords
      | none => []) ++ extract_with_regex text max_keywords))).take max_keywords

/-! ### ConceptExtractor (`src/graph_builder/concept_extractor.py`) -/

/-- A related column `{table, column}` of a business concept. -/
structure ConceptColumn where
  table : String
  column : String
deriving DecidableEq, Repr

/-- A business concept as loaded from the YAML definition source. -/
structure Concept where
  name : String
  description : String
  related_tables : List String
  related_columns : List ConceptColumn
  synonyms : List String
deriving DecidableEq, Repr

/-- A concept matched to a query, tagged with the match type and the matched term. -/
structure ConceptMatch where
  concept : Concept
  match_type : String
  matched_term : String
deriving DecidableEq, Repr

/-- Embedding of `ConceptExtractor.match_concept_to_query`: case-insensitive substring
containment of the concept name (match type `exact`, which short-circuits the synonym
check) or of the first matching synonym (match type `synonym`). -/
def match_concept_to_query (concepts : List Concept) (query : String) : List ConceptMatch :=
  let query_lower := pyLower query
  concepts.filterMap (fun c =>
    if strContainsSub query_lower (pyLower c.name) then
      some { concept := c, match_type := "exact", matched_term := c.name }
    else
      match c.synonyms.find? (fun s => strContainsSub query_lower (pyLower s)) with
      | some s => some { concept := c, match_type := "synonym", matched_term := s }
      | none => none)

/-! ### EntityMatcher (`src/entity_linking/entity_matcher.py`) -/

/-- A `Table` node row as returned by the graph store. -/
structure TableRow where
  name : String
  comment : String
deriving DecidableEq, Repr

/-- A `Column` node row as returned by the graph store. -/
structure ColumnRow where
  table_name : String
  name : String
  comment : String
  type : String
deriving DecidableEq, Repr

/-- A `Value` node row as returned by the graph store. -/
structure ValueRow where
  table_name : String
  column_name : String
  value : String
deriving DecidableEq, Repr

/-- The graph-store query interface used by `EntityMatcher`, one field per Cypher
query in the source. The store is an external collaborator: `execute_query` either
returns rows (the exact queries also embody the store-side CONTAINS filtering and
LIMIT clauses) or raises, modelled by `Except`. -/
structure GraphConn where
  tablesExact : String → Except String (List TableRow)
  tablesAll : Unit → Except String (List TableRow)
  columnsExact : String → Except String (List ColumnRow)
  columnsAll : Unit → Except String (List ColumnRow)
  valuesEq : String → Except String (List ValueRow)

/-- A matched table entry of the bundle. -/
structure TableMatch where
  name : String
  comment : String
  score : Nat
  match_type : String
deriving DecidableEq, Repr

/-- A matched column entry of the bundle. -/
structure ColumnMatch where
  table_name : String
  name : String
  comment : String
  type : String
  score : Nat
  match_type : String
deriving DecidableEq, Repr

/-- A matched value entry of the bundle. -/
structure ValueMatch where
  table_name : String
  column_name : String
  value : String
  score : Nat
  match_type : String
deriving DecidableEq, Repr

/-- Embedding of `EntityMatcher._calculate_similarity`: 0 when either text is empty,
otherwise the `SequenceMatcher` ratio of the lower-cased texts. `simFn` abstracts
`difflib.SequenceMatcher(None, a, b).ratio()`, scaled to hundredths. -/
def calculate_similarity (simFn : String → String → Nat) (text1 text2 : String) : Nat :=
  if text1 = "" ∨ text2 = "" then 0
  else simFn (pyLower text1) (pyLower text2)

/-- Embedding of `EntityMatcher._match_tables`: the exact probe first (score 1.0);
only when it returns no rows, the fuzzy pass over all tables, accepting a candidate
iff the maximum of name and comment similarity reaches the threshold. -/
def match_tables (conn : GraphConn) (simFn : String → String → Nat)
    (fuzzy_threshold : Nat) (keyword : String) : Except String (List TableMatch) :=
  match conn.tablesExact keyword with
  | .error e => .error e
  | .ok exact_matches =>
    if exact_matches.isEmpty then
      match conn.tablesAll () with
      | .error e => .error e
      | .ok all_tables =>
        .ok (all_tables.filterMap (fun t =>
          let max_similarity := max (calculate_similarity simFn keyword t.name)
            (calculate_similarity simFn keyword t.comment)
          if fuzzy_threshold ≤ max_similarity then
            some { name := t.name, comment := t.comment, score := max_similarity,
                   match_type := "fuzzy" }
          else none))
    else
      .ok (exact_matches.map (fun m =>
        { name := m.name, comment := m.comment, score := 100, match_type := "exact" }))

/-- Embedding of `EntityMatcher._match_columns`: the exact probe first (score 1.0);
the fuzzy pass runs only when the exact pass is empty and the keyword has at least
3 characters, accepting iff max(name similarity, comment similarity) ≥ threshold. -/
def match_columns (conn : GraphConn) (simFn : String → String → Nat)
    (fuzzy_threshold : Nat) (keyword : String) : Except String (List ColumnMatch) :=
  match conn.columnsExact keyword with
  | .error e => .error e
  | .ok exact_matches =>
    if exact_matches.isEmpty then
      if 3 ≤ keyword.length then
        match conn.columnsAll () with
        | .error e => .error e
        | .ok all_columns =>
          .ok (all_columns.filterMap (fun col =>
            let max_similarity := max (calculate_similarity simFn keyword col.name)
              (calculate_similarity simFn keyword col.comment)
            if fuzzy_threshold ≤ max_similarity then
              some { table_name := col.table_name, name := col.name,
                     comment := col.comment, type := col.type,
                     score := max_similarity, match_type := "fuzzy" }
            else none))
      else
        .ok []
    else
      .ok (exact_matches.map (fun m =>
        { table_name := m.table_name, name := m.name, comment := m.comment,
          type := m.type, score := 100, match_type := "exact" }))

/-- Embedding of `EntityMatcher._match_values`: exact-only value-node probe. -/
def match_values (conn : GraphConn) (keyword : String) : Except String (List ValueMatch) :=
  match conn.valuesEq keyword with
  | .error e => .error e
  | .ok found =>
    .ok (found.map (fun m =>
      { table_name := m.table_name, column_name := m.column_name, value := m.value,
        score := 100, match_type := "exact" }))

/-- Identity key of a table match (`_deduplicate_matches`). -/
def tableMatchKey (m : TableMatch) : String := m.name

/-- Identity key of a column match: `table_name.name`. -/
def columnMatchKey (m : ColumnMatch) : String := m.table_name ++ "." ++ m.name

/-- Identity key of a value match: `table_name.column_name.value`. -/
def valueMatchKey (m : ValueMatch) : String :=
  m.table_name ++ "." ++ m.column_name ++ "." ++ m.value

/-- Embedding of `EntityMatcher._deduplicate_matches` for one homogeneous category:
keep-first deduplication by identity key, then a stable descending sort by score. -/
def deduplicate_matches {α : Type} (key : α → String) (score : α → Nat)
    (ms : List α) : List α :=
  sortDescBy score (dedupByKey key ms)

/-- Run a per-keyword probe over all keywords in order and concatenate the results,
as the `for kw in keywords: matches[...].extend(...)` loops do; the first raised
error aborts the whole loop. -/
def collectProbe {β : Type} (f : Keyword → Except String (List β)) :
    List Keyword → Except String (List β)
  | [] => .ok []
  | k :: ks =>
    match f k with
    | .error e => .error e
    | .ok here =>
      match collectProbe f ks with
      | .error e => .error e
      | .ok rest => .ok (here ++ rest)

/-- The keyword types whose keywords probe value nodes. -/
def valueKeywordTypes : List String := ["NUMBER", "TIME", "LOCATION", "ENTITY_LOC"]

/-- The bundle returned by `EntityMatcher.match_entities`. -/
structure MatchBundle where
  tables : List TableMatch
  columns : List ColumnMatch
  concepts : List ConceptMatch
  values : List ValueMatch
  keywords : List Keyword
deriving DecidableEq, Repr

/-- Embedding of `EntityMatcher.match_entities`: extract keywords (`max_keywords=15`),
match concepts (empty concept list when no concept extractor is configured), probe
tables, columns, and value nodes per keyword, then deduplicate and sort the table,
column, and value categories. The source has no try/except around the probes, so a
store error propagates (`Except.error`). -/
def match_entities (conn : GraphConn) (simFn : String → String → Nat)
    (fuzzy_threshold : Nat) (concepts : List Concept) (nlp : Option SpacyDoc)
    (query : String) : Except String MatchBundle :=
  match collectProbe (fun kw => match_tables conn simFn fuzzy_threshold kw.text)
      (extract nlp query 15) with
  | .error e => .error e
  | .ok rawTables =>
    match collectProbe (fun kw => match_columns conn simFn fuzzy_threshold kw.text)
        (extract nlp query 15) with
    | .error e => .error e
    | .ok rawColumns =>
      match collectProbe (fun kw =>
          if valueKeywordTypes.contains kw.type then match_values conn kw.text
          else Except.ok []) (extract nlp query 15) with
      | .error e => .error e
      | .ok rawValues =>
        .ok { tables := deduplicate_matches tableMatchKey (fun m => m.score) rawTables,
              columns := deduplicate_matches columnMatchKey (fun m => m.score) rawColumns,
              concepts := match_concept_to_query concepts query,
              values := deduplicate_matches valueMatchKey (fun m => m.score) rawValues,
              keywords := extract nlp query 15 }

/-! ### SubgraphRetriever (`src/graph_query/subgraph_retriever.py`) -/

/-- A property of an enumeration function that can stand for CPython's `list(set(l))`
over strings: the output is duplicate-free and has exactly the members of the input.
The iteration order of a CPython string set is hash-randomised and unspecified, so
the retriever embedding is parameterised by any such function. -/
def IsSetEnum (setEnum : List String → List String) : Prop :=
  ∀ l : List String, (setEnum l).Nodup ∧ ∀ x, x ∈ setEnum l ↔ x ∈ l

/-- A row of the `FOREIGN_KEY*1..d` traversal query of `_find_related_tables`:
a reached table name and its path length, rows ordered by ascending distance
(`ORDER BY distance ASC`). -/
structure RelatedRow where
  table_name : String
  distance : Nat
deriving DecidableEq, Repr

/-- Embedding of `SubgraphRetriever._get_entry_tables`: names of matched tables and
the matched concepts' related tables, deduplicated through a Python set. -/
def get_entry_tables (setEnum : List String → List String) (matched_entities : MatchBundle) :
    List String :=
  setEnum (matched_entities.tables.map (·.name) ++
    matched_entities.concepts.flatMap (fun cm => cm.concept.related_tables))

/-- Embedding of `SubgraphRetriever._infer_tables_from_columns`: owning tables of
matched columns and of matched values with a non-empty table name. -/
def infer_tables_from_columns (setEnum : List String → List String)
    (matched_entities : MatchBundle) : List String :=
  setEnum (matched_entities.columns.map (·.table_name) ++
    matched_entities.values.filterMap (fun v =>
      if v.table_name ≠ "" then some v.table_name else none))

/-- Embedding of `SubgraphRetriever._find_related_tables`: the table names of the
traversal result rows in row order; a store error degrades to the empty list
(the probe is wrapped in try/except in the source). -/
def find_related_tables (res : Except String (List RelatedRow)) : List String :=
  match res with
  | .ok rows => rows.map (·.table_name)
  | .error _ => []

/-- The table-selection step of `SubgraphRetriever.retrieve_subgraph` (lines 64-70):
`all_tables = list(set(entry_tables + related_tables))[: self.max_tables]`. -/
def retrieve_subgraph_tables (setEnum : List String → List String)
    (entry_tables : List String) (res : Except String (List RelatedRow))
    (max_tables : Nat) : List String :=
  (setEnum (entry_tables ++ find_related_tables res)).take max_tables

/-- The hop distance the traversal rows assign to a table: 0 for an entry table,
otherwise the distance of the first row carrying that table (0 if never reached). -/
def hop_distance (entry_tables : List String) (rows : List RelatedRow) (t : String) : Nat :=
  match (entry_tables.map (fun e => RelatedRow.mk e 0) ++ rows).find?
      (fun r => r.table_name == t) with
  | some r => r.distance
  | none => 0

/-- A highlighted column of the subgraph: owning table, column, reason tag, score. -/
structure HighlightedColumn where
  table : String
  column : String
  reason : String
  score : Nat
deriving DecidableEq, Repr

/-- The direct-match stage of `_identify_highlighted_columns`: matched columns whose
table is in the final set, keeping the match score (`col_match.get("score", 0.5)`,
always present in a bundle). -/
def direct_highlighted (matched_entities : MatchBundle) (tables : List String) :
    List HighlightedColumn :=
  matched_entities.columns.filterMap (fun cm =>
    if tables.contains cm.table_name then
      some { table := cm.table_name, column := cm.name, reason := "direct_match",
             score := cm.score }
    else none)

/-- The concept-match stage of `_identify_highlighted_columns`: related columns of
matched concepts whose table is in the final set, fixed score 0.9. -/
def concept_highlighted (matched_entities : MatchBundle) (tables : List String) :
    List HighlightedColumn :=
  matched_entities.concepts.flatMap (fun cm =>
    cm.concept.related_columns.filterMap (fun rc =>
      if tables.contains rc.table then
        some { table := rc.table, column := rc.column, reason := "concept_match",
               score := 90 }
      else none))

/-- Identity key of a highlighted column: `table.column`. -/
def highlightedKey (h : HighlightedColumn) : String := h.table ++ "." ++ h.column

/-- Embedding of `SubgraphRetriever._identify_highlighted_columns`: direct column
matches first, then concept-related columns, keep-first deduplication by
`table.column`, and a stable descending sort by score. -/
def identify_highlighted_columns (matched_entities : MatchBundle) (tables : List String) :
    List HighlightedColumn :=
  sortDescBy (fun h => h.score)
    (dedupByKey highlightedKey
      (direct_highlighted matched_entities tables ++
        concept_highlighted matched_entities tables))

/-! ### SchemaPruner (`src/graph_query/schema_pruner.py`) -/

/-- A column of a table node fetched from the graph store. -/
structure Column where
  name : String
  type : String
  nullable : Bool
  primary_key : Bool
  comment : String
deriving DecidableEq, Repr

/-- A table of a subgraph, as assembled by `_get_table_info`. -/
structure Table where
  name : String
  comment : String
  primary_keys : List String
  columns : List Column
deriving DecidableEq, Repr

/-- A foreign-key relationship between two tables of the subgraph. -/
structure Relationship where
  from_table : String
  to_table : String
  from_columns : List String
  to_columns : List String
deriving DecidableEq, Repr

/-- The subgraph handed to the pruner: tables, relationships and highlighted columns
(the diagnostic `metadata` counts are not modelled). -/
structure Subgraph where
  tables : List Table
  relationships : List Relationship
  highlighted_columns : List HighlightedColumn
deriving DecidableEq, Repr

/-- A pruned column (`SchemaPruner._prune_column`). -/
structure PrunedColumn where
  name : String
  type : String
  nullable : Bool
  primary_key : Bool
  comment : String
  highlighted : Bool
deriving DecidableEq, Repr

/-- A pruned table. -/
structure PrunedTable where
  name : String
  comment : String
  primary_keys : List String
  columns : List PrunedColumn
deriving DecidableEq, Repr

/-- The pruned schema: pruned tables plus the relationships passed through. -/
structure PrunedSchema where
  tables : List PrunedTable
  relationships : List Relationship
deriving DecidableEq, Repr

/-- Embedding of `SchemaPruner._prune_column`. -/
def prune_column (include_comments : Bool) (column : Column) (is_highlighted : Bool) :
    PrunedColumn :=
  { name := column.name, type := column.type, nullable := column.nullable,
    primary_key := column.primary_key,
    comment := if include_comments then column.comment else "",
    highlighted := is_highlighted }

/-- The column-selection loop of `SchemaPruner._prune_table`: with highlighting
enabled keep only highlighted or primary-key columns, with highlighting disabled
keep every column. -/
def kept_columns (include_comments highlight_relevant_columns : Bool) (table : Table)
    (highlighted_keys : List String) : List PrunedColumn :=
  table.columns.filterMap (fun column =>
    let is_highlighted := highlighted_keys.contains (table.name ++ "." ++ column.name)
    if highlight_relevant_columns then
      if is_highlighted || column.primary_key then
        some (prune_column include_comments column is_highlighted)
      else none
    else
      some (prune_column include_comments column is_highlighted))

/-- The `确保至少包含主键列` fallback of `_prune_table`: the primary-key columns. -/
def pk_fallback_columns (include_comments : Bool) (table : Table) : List PrunedColumn :=
  table.columns.filterMap (fun column =>
    if column.primary_key then some (prune_column include_comments column false)
    else none)

/-- Embedding of `SchemaPruner._prune_table`: the kept columns, or — if the
selection left nothing — the primary-key columns (which may themselves be absent). -/
def prune_table (include_comments highlight_relevant_columns : Bool) (table : Table)
    (highlighted_keys : List String) : PrunedTable :=
  { name := table.name,
    comment := if include_comments then table.comment else "",
    primary_keys := table.primary_keys,
    columns :=
      if (kept_columns include_comments highlight_relevant_columns table
          highlighted_keys).isEmpty then
        pk_fallback_columns include_comments table
      else
        kept_columns include_comments highlight_relevant_columns table highlighted_keys }

/-- Embedding of `SchemaPruner.prune_schema`: prune each table against the
`table.column` keys of the highlighted columns; relationships pass through. -/
def prune_schema (include_comments highlight_relevant_columns : Bool)
    (subgraph : Subgraph) : PrunedSchema :=
  let highlighted_keys := subgraph.highlighted_columns.map (fun h =>
    h.table ++ "." ++ h.column)
  { tables := subgraph.tables.map (fun t =>
      prune_table include_comments highlight_relevant_columns t highlighted_keys),
    relationships := subgraph.relationships }

/-! ### SimpleCache (`src/utils.py`) -/

/-- A cache entry: key, stored value, and the `datetime.now().timestamp()` at
insertion, modelled as a natural number supplied by the caller. -/
structure CacheEntry (α : Type) where
  key : String
  value : α
  timestamp : Nat
deriving DecidableEq, Repr

/-- Python dict assignment `cache[key] = {...}`: update in place when the key is
present (a dict keeps the original insertion position), else append. -/
def pyDictSet {α : Type} (cache : List (CacheEntry α)) (key : String) (value : α)
    (now : Nat) : List (CacheEntry α) :=
  if cache.any (fun e => e.key == key) then
    cache.map (fun e => if e.key == key then ⟨key, value, now⟩ else e)
  else cache ++ [⟨key, value, now⟩]

/-- One comparison step of Python `min(..., key=...)`: keep the current best on
ties (Python `min` returns the earliest minimal element). -/
def pickOlder {α : Type} (best x : CacheEntry α) : CacheEntry α :=
  if x.timestamp < best.timestamp then x else best

/-- The key selected by `min(self.cache.keys(), key=lambda k: ...timestamp)`:
the first entry with the minimal timestamp (Python `min` keeps the earliest of
ties in dict iteration order, which is insertion order). `none` on an empty
cache, where Python `min` would raise `ValueError`. -/
def oldest_key {α : Type} : List (CacheEntry α) → Option String
  | [] => none
  | e :: es => some ((es.foldl pickOlder e).key)

/-- Embedding of `SimpleCache.set`: when the cache already holds `max_size` or more
entries, first delete the oldest entry (even when `key` is already present),
then write the new entry. -/
def cache_set {α : Type} (max_size : Nat) (cache : List (CacheEntry α)) (key : String)
    (value : α) (now : Nat) : List (CacheEntry α) :=
  let cache1 := if max_size ≤ cache.length then
      match oldest_key cache with
      | some ok => cache.filter (fun e => e.key != ok)
      | none => cache
    else cache
  pyDictSet cache1 key value now

/-- Embedding of `SimpleCache.get`: a missing key is a miss; a present entry is a
miss that also deletes the entry when `now - timestamp > ttl`, else a hit.
Returns the result together with the cache after the call. -/
def cache_get {α : Type} (ttl : Nat) (cache : List (CacheEntry α)) (key : String)
    (now : Nat) : Option α × List (CacheEntry α) :=
  match cache.find? (fun e => e.key == key) with
  | none => (none, cache)
  | some e =>
    if ttl < now - e.timestamp then (none, cache.filter (fun x => x.key != key))
    else (some e.value, cache)

/-- Embedding of `SimpleCache.size`. -/
def cache_size {α : Type} (cache : List (CacheEntry α)) : Nat := cache.length

/-- Insert the keys of a list one after another into an initially empty cache with
strictly increasing timestamps `t0, t0 + 1, ...` and a fixed value, the scenario
of the cache-bound property. -/
def fill_from {α : Type} (max_size : Nat) (v : α) (cache : List (CacheEntry α))
    (t0 : Nat) : List String → List (CacheEntry α)
  | [] => cache
  | k :: ks => fill_from max_size v (cache_set max_size cache k v t0) (t0 + 1) ks

/-- Fill an empty cache with the given distinct keys at timestamps `0, 1, 2, ...`. -/
def fill_cache {α : Type} (max_size : Nat) (v : α) (ks : List String) :
    List (CacheEntry α) :=
  fill_from max_size v [] 0 ks

/-- The canonical cache contents after inserting the given keys at consecutive
timestamps starting from `t0` with no eviction. -/
def mk_entries {α : Type} (v : α) : List String → Nat → List (CacheEntry α)
  | [], _ => []
  | k :: ks, t => ⟨k, v, t⟩ :: mk_entries v ks (t + 1)

/-! ### Concrete fixtures used by counterexamples and witnesses -/

/-- A subgraph on which the pruner emits a table with no columns: its only table has a
single column that is neither highlighted nor a primary key. -/
def emptyFallbackSubgraph : Subgraph :=
  { tables := [{ name := "events", comment := "", primary_keys := [],
                 columns := [{ name := "payload", type := "text", nullable := true,
                               primary_key := false, comment := "" }] }],
    relationships := [],
    highlighted_columns := [] }

/-- A bundle in which `users.city` is both a direct column match and a
concept-related column. -/
def overlapBundle : MatchBundle :=
  { tables := [],
    columns := [{ table_name := "users", name := "city", comment := "",
                  type := "varchar", score := 100, match_type := "exact" }],
    concepts := [{ concept := { name := "city analysis", description := "",
                                related_tables := [],
                                related_columns := [{ table := "users", column := "city" }],
                                synonyms := [] },
                   match_type := "exact", matched_term := "city analysis" }],
    values := [],
    keywords := [] }

/-! ## Lemmas about keep-first deduplication -/

theorem dedupByKeyAux_sublist {α : Type} (key : α → String) :
    ∀ (l : List α) (seen : List String), List.Sublist (dedupByKeyAux key seen l) l := by
  intro l
  induction l with
  | nil => intro seen; simp [dedupByKeyAux]
  | cons x xs ih =>
    intro seen
    simp only [dedupByKeyAux]
    by_cases h : key x ∈ seen
    · rw [if_pos h]; exact (ih seen).cons x
    · rw [if_neg h]; exact (ih _).cons₂ x

theorem dedupByKey_sublist {α : Type} (key : α → String) (l : List α) :
    List.Sublist (dedupByKey key l) l :=
  dedupByKeyAux_sublist key l []

theorem mem_of_mem_dedupByKey {α : Type} (key : α → String) (l : List α) (x : α)
    (hx : x ∈ dedupByKey key l) : x ∈ l :=
  (dedupByKey_sublist key l).subset hx

theorem dedupByKeyAux_key_not_seen {α : Type} (key : α → String) :
    ∀ (l : List α) (seen : List String) (x : α),
      x ∈ dedupByKeyAux key seen l → key x ∉ seen := by
  intro l
  induction l with
  | nil => intro seen x hx; simp [dedupByKeyAux] at hx
  | cons a as ih =>
    intro seen x hx
    simp only [dedupByKeyAux] at hx
    by_cases h : key a ∈ seen
    · rw [if_pos h] at hx; exact ih seen x hx
    · rw [if_neg h] at hx
      rcases List.mem_cons.mp hx with rfl | hx'
      · exact h
      · intro hc
        exact ih _ x hx' (List.mem_cons_of_mem _ hc)

theorem dedupByKeyAux_nodup_keys {α : Type} (key : α → String) :
    ∀ (l : List α) (seen : List String), ((dedupByKeyAux key seen l).map key).Nodup := by
  intro l
  induction l with
  | nil => intro seen; simp [dedupByKeyAux]
  | cons a as ih =>
    intro seen
    simp only [dedupByKeyAux]
    by_cases h : key a ∈ seen
    · rw [if_pos h]; exact ih seen
    · rw [if_neg h]
      simp only [List.map_cons, List.nodup_cons]
      refine ⟨?_, ih _⟩
      intro hmem
      rcases List.mem_map.mp hmem with ⟨y, hy, hky⟩
      exact dedupByKeyAux_key_not_seen key as _ y hy (by simp [hky])

theorem dedupByKey_nodup_keys {α : Type} (key : α → String) (l : List α) :
    ((dedupByKey key l).map key).Nodup :=
  dedupByKeyAux_nodup_keys key l []

theorem dedupByKeyAux_find? {α : Type} (key : α → String) :
    ∀ (l : List α) (seen : List String) (x : α), x ∈ dedupByKeyAux key seen l →
      l.find? (fun r => key r == key x) = some x := by
  intro l
  induction l with
  | nil => intro seen x hx; simp [dedupByKeyAux] at hx
  | cons a as ih =>
    intro seen x hx
    simp only [dedupByKeyAux] at hx
    by_cases h : key a ∈ seen
    · rw [if_pos h] at hx
      have hne : ¬ ((key a == key x) = true) := by
        simp only [beq_iff_eq]
        intro he
        exact dedupByKeyAux_key_not_seen key as seen x hx (he ▸ h)
      rw [@List.find?_cons_of_neg α (fun r => key r == key x) a as hne]
      exact ih seen x hx
    · rw [if_neg h] at hx
      rcases List.mem_cons.mp hx with rfl | hx'
      · exact @List.find?_cons_of_pos α (fun r => key r == key x) x as (by simp)
      · have hne : ¬ ((key a == key x) = true) := by
          simp only [beq_iff_eq]
          intro he
          exact dedupByKeyAux_key_not_seen key as _ x hx' (by simp [he])
        rw [@List.find?_cons_of_neg α (fun r => key r == key x) a as hne]
        exact ih _ x hx'

theorem dedupByKeyAux_append {α : Type} (key : α → String) :
    ∀ (l₁ l₂ : List α) (seen : List String),
      (l₁.map key).Nodup → (∀ k ∈ l₁.map key, k ∉ seen) →
      dedupByKeyAux key seen (l₁ ++ l₂) =
        l₁ ++ dedupByKeyAux key (l₁.reverse.map key ++ seen) l₂ := by
  intro l₁
  induction l₁ with
  | nil => intro l₂ seen _ _; simp
  | cons a as ih =>
    intro l₂ seen hnd hdisj
    simp only [List.cons_append, dedupByKeyAux]
    have ha : key a ∉ seen := hdisj _ (by simp)
    rw [if_neg ha]
    have hnd' : (as.map key).Nodup := (List.nodup_cons.mp (by simpa using hnd)).2
    have hnotin : key a ∉ as.map key := (List.nodup_cons.mp (by simpa using hnd)).1
    have hdisj' : ∀ k ∈ as.map key, k ∉ key a :: seen := by
      intro k hk
      simp only [List.mem_cons]
      rintro (rfl | hks)
      · exact hnotin hk
      · exact hdisj k (by simp [hk]) hks
    have harr : as.reverse.map key ++ key a :: seen =
        (a :: as).reverse.map key ++ seen := by
      simp [List.reverse_cons]
    simp only [List.append_eq]
    rw [ih l₂ (key a :: seen) hnd' hdisj', harr]

theorem dedupByKeyAux_map {α : Type} (f : α → String) :
    ∀ (l : List α) (seen : List String),
      (dedupByKeyAux f seen l).map f = dedupByKeyAux (fun s => s) seen (l.map f) := by
  intro l
  induction l with
  | nil => intro seen; simp [dedupByKeyAux]
  | cons a as ih =>
    intro seen
    simp only [dedupByKeyAux, List.map_cons]
    by_cases h : f a ∈ seen
    · rw [if_pos h, if_pos h]; exact ih seen
    · rw [if_neg h, if_neg h, List.map_cons, ih]

/-! ## Lemmas about the stable descending sort -/

theorem insertDescBy_perm {α : Type} (score : α → Nat) (x : α) :
    ∀ l : List α, List.Perm (insertDescBy score x l) (x :: l) := by
  intro l
  induction l with
  | nil => exact List.Perm.refl _
  | cons y ys ih =>
    simp only [insertDescBy]
    by_cases h : score y ≤ score x
    · rw [if_pos h]
    · rw [if_neg h]
      exact (ih.cons y).trans (List.Perm.swap x y ys)

theorem sortDescBy_perm {α : Type} (score : α → Nat) :
    ∀ l : List α, List.Perm (sortDescBy score l) l := by
  intro l
  induction l with
  | nil => exact List.Perm.refl _
  | cons x xs ih =>
    simp only [sortDescBy]
    exact (insertDescBy_perm score x _).trans (ih.cons x)

theorem insertDescBy_pairwise {α : Type} (score : α → Nat) (x : α) :
    ∀ l : List α, l.Pairwise (fun a b => score b ≤ score a) →
      (insertDescBy score x l).Pairwise (fun a b => score b ≤ score a) := by
  intro l
  induction l with
  | nil => intro _; simp [insertDescBy]
  | cons y ys ih =>
    intro hp
    rcases List.pairwise_cons.mp hp with ⟨hy, hys⟩
    simp only [insertDescBy]
    by_cases h : score y ≤ score x
    · rw [if_pos h]
      refine List.pairwise_cons.mpr ⟨?_, hp⟩
      intro b hb
      rcases List.mem_cons.mp hb with rfl | hb'
      · exact h
      · exact le_trans (hy b hb') h
    · rw [if_neg h]
      refine List.pairwise_cons.mpr ⟨?_, ih hys⟩
      intro b hb
      have hb2 := (insertDescBy_perm score x ys).mem_iff.mp hb
      rcases List.mem_cons.mp hb2 with rfl | hb'
      · exact le_of_lt (Nat.lt_of_not_le h)
      · exact hy b hb'

theorem sortDescBy_pairwise {α : Type} (score : α → Nat) :
    ∀ l : List α, (sortDescBy score l).Pairwise (fun a b => score b ≤ score a) := by
  intro l
  induction l with
  | nil => simp [sortDescBy]
  | cons x xs ih =>
    simp only [sortDescBy]
    exact insertDescBy_pairwise score x _ ih

theorem insertDescBy_filter {α : Type} (score : α → Nat) (x : α) (s : Nat) :
    ∀ l : List α, (insertDescBy score x l).filter (fun a => score a == s) =
      if score x = s then x :: l.filter (fun a => score a == s)
      else l.filter (fun a => score a == s) := by
  intro l
  induction l with
  | nil =>
    by_cases hx : score x = s
    · have hb : (score x == s) = true := by simpa using hx
      simp [insertDescBy, List.filter_cons, hb, hx]
    · have hb : (score x == s) = false := by simpa using hx
      simp [insertDescBy, List.filter_cons, hb, hx]
  | cons y ys ih =>
    simp only [insertDescBy]
    by_cases h : score y ≤ score x
    · rw [if_pos h]
      by_cases hx : score x = s
      · have hb : (score x == s) = true := by simpa using hx
        simp [List.filter_cons, hb, hx]
      · have hb : (score x == s) = false := by simpa using hx
        simp [List.filter_cons, hb, hx]
    · rw [if_neg h]
      have hlt : score x < score y := Nat.lt_of_not_le h
      by_cases hx : score x = s
      · have hy : (score y == s) = false := by
          simp only [beq_eq_false_iff_ne]
          omega
        rw [if_pos hx]
        simp only [List.filter_cons, hy, ih, if_pos hx]
        simp
      · rw [if_neg hx]
        simp only [List.filter_cons, ih, if_neg hx]

theorem sortDescBy_filter {α : Type} (score : α → Nat) (s : Nat) :
    ∀ l : List α, (sortDescBy score l).filter (fun a => score a == s) =
      l.filter (fun a => score a == s) := by
  intro l
  induction l with
  | nil => simp [sortDescBy]
  | cons x xs ih =>
    simp only [sortDescBy, insertDescBy_filter, List.filter_cons]
    by_cases hx : score x = s
    · have hb : (score x == s) = true := by simpa using hx
      rw [if_pos hx, ih, hb]
      simp
    · have hb : (score x == s) = false := by simpa using hx
      rw [if_neg hx, ih, hb]
      simp

theorem sortDescBy_mem {α : Type} (score : α → Nat) (l : List α) (x : α) :
    x ∈ sortDescBy score l ↔ x ∈ l :=
  (sortDescBy_perm score l).mem_iff

/-! ## Lemmas about the cache -/

theorem foldl_pickOlder_mem {α : Type} :
    ∀ (es : List (CacheEntry α)) (e : CacheEntry α),
      es.foldl pickOlder e ∈ e :: es := by
  intro es
  induction es with
  | nil => intro e; simp [List.foldl]
  | cons x xs ih =>
    intro e
    simp only [List.foldl]
    have h := ih (pickOlder e x)
    rcases List.mem_cons.mp h with heq | hmem
    · rw [heq]
      unfold pickOlder
      by_cases hc : x.timestamp < e.timestamp
      · rw [if_pos hc]; simp
      · rw [if_neg hc]; simp
    · simp [hmem]

theorem foldl_pickOlder_min {α : Type} :
    ∀ (es : List (CacheEntry α)) (e : CacheEntry α),
      (es.foldl pickOlder e).timestamp ≤ e.timestamp ∧
      ∀ x ∈ es, (es.foldl pickOlder e).timestamp ≤ x.timestamp := by
  intro es
  induction es with
  | nil => intro e; simp [List.foldl]
  | cons x xs ih =>
    intro e
    simp only [List.foldl]
    rcases ih (pickOlder e x) with ⟨h1, h2⟩
    have hpick_le_e : (pickOlder e x).timestamp ≤ e.timestamp := by
      unfold pickOlder
      by_cases hc : x.timestamp < e.timestamp
      · rw [if_pos hc]; omega
      · rw [if_neg hc]
    have hpick_le_x : (pickOlder e x).timestamp ≤ x.timestamp := by
      unfold pickOlder
      by_cases hc : x.timestamp < e.timestamp
      · rw [if_pos hc]
      · rw [if_neg hc]; omega
    refine ⟨le_trans h1 hpick_le_e, ?_⟩
    intro y hy
    rcases List.mem_cons.mp hy with rfl | hmem
    · exact le_trans h1 hpick_le_x
    · exact h2 y hmem

theorem oldest_key_spec {α : Type} (cache : List (CacheEntry α)) (k : String)
    (h : oldest_key cache = some k) :
    ∃ e ∈ cache, e.key = k ∧ ∀ x ∈ cache, e.timestamp ≤ x.timestamp := by
  cases cache with
  | nil => simp [oldest_key] at h
  | cons e es =>
    simp only [oldest_key, Option.some.injEq] at h
    refine ⟨es.foldl pickOlder e, foldl_pickOlder_mem es e, h, ?_⟩
    intro x hx
    rcases List.mem_cons.mp hx with hxe | hmem
    · rw [hxe]; exact (foldl_pickOlder_min es e).1
    · exact (foldl_pickOlder_min es e).2 x hmem

theorem foldl_pickOlder_of_lt {α : Type} :
    ∀ (es : List (CacheEntry α)) (e : CacheEntry α),
      (∀ x ∈ es, e.timestamp < x.timestamp) → es.foldl pickOlder e = e := by
  intro es
  induction es with
  | nil => intro e _; rfl
  | cons x xs ih =>
    intro e hlt
    simp only [List.foldl]
    have hx : e.timestamp < x.timestamp := hlt x (by simp)
    have : pickOlder e x = e := by
      unfold pickOlder
      rw [if_neg (by omega)]
    rw [this]
    exact ih e (fun y hy => hlt y (List.mem_cons_of_mem _ hy))

theorem mk_entries_append {α : Type} (v : α) :
    ∀ (ks1 ks2 : List String) (t : Nat),
      mk_entries v (ks1 ++ ks2) t = mk_entries v ks1 t ++ mk_entries v ks2 (t + ks1.length) := by
  intro ks1
  induction ks1 with
  | nil => intro ks2 t; simp [mk_entries]
  | cons k ks ih =>
    intro ks2 t
    simp only [List.cons_append, mk_entries, List.append_eq, ih, List.length_cons]
    have : t + 1 + ks.length = t + (ks.length + 1) := by omega
    rw [this]

theorem mk_entries_map_key {α : Type} (v : α) :
    ∀ (ks : List String) (t : Nat), (mk_entries v ks t).map (fun e => e.key) = ks := by
  intro ks
  induction ks with
  | nil => intro t; simp [mk_entries]
  | cons k ks ih => intro t; simp [mk_entries, ih]

theorem mk_entries_length {α : Type} (v : α) :
    ∀ (ks : List String) (t : Nat), (mk_entries v ks t).length = ks.length := by
  intro ks
  induction ks with
  | nil => intro t; simp [mk_entries]
  | cons k ks ih => intro t; simp [mk_entries, ih]

theorem mk_entries_ts_lb {α : Type} (v : α) :
    ∀ (ks : List String) (t : Nat) (x : CacheEntry α), x ∈ mk_entries v ks t →
      t ≤ x.timestamp := by
  intro ks
  induction ks with
  | nil => intro t x hx; simp [mk_entries] at hx
  | cons k ks ih =>
    intro t x hx
    simp only [mk_entries, List.mem_cons] at hx
    rcases hx with rfl | hx'
    · simp
    · have := ih (t + 1) x hx'
      omega

theorem oldest_key_mk_entries {α : Type} (v : α) (k : String) (ks : List String) (t : Nat) :
    oldest_key (mk_entries v (k :: ks) t) = some k := by
  have hlt : ∀ x ∈ mk_entries v ks (t + 1),
      (⟨k, v, t⟩ : CacheEntry α).timestamp < x.timestamp := by
    intro x hx
    have := mk_entries_ts_lb v ks (t + 1) x hx
    show t < x.timestamp
    omega
  simp only [mk_entries, oldest_key, Option.some.injEq]
  rw [foldl_pickOlder_of_lt _ _ hlt]

theorem filter_ne_key_all {α : Type} (k : String) :
    ∀ cache : List (CacheEntry α), (∀ x ∈ cache, x.key ≠ k) →
      cache.filter (fun e => e.key != k) = cache := by
  intro cache
  induction cache with
  | nil => intro _; rfl
  | cons e es ih =>
    intro h
    have he : (e.key != k) = true := by
      simp only [bne_iff_ne, ne_eq]
      exact h e (by simp)
    simp only [List.filter_cons, he, if_pos trivial]
    rw [ih (fun x hx => h x (List.mem_cons_of_mem _ hx))]

theorem pyDictSet_fresh {α : Type} (cache : List (CacheEntry α)) (k : String) (v : α)
    (now : Nat) (h : ∀ x ∈ cache, x.key ≠ k) :
    pyDictSet cache k v now = cache ++ [⟨k, v, now⟩] := by
  have hany : (cache.any (fun e => e.key == k)) = false := by
    rw [List.any_eq_false]
    intro x hx
    simp only [beq_iff_eq]
    exact h x hx
  unfold pyDictSet
  rw [hany]
  simp

theorem mk_entries_filter_head {α : Type} (v : α) (k : String) (ks : List String) (t : Nat)
    (hk : k ∉ ks) :
    (mk_entries v (k :: ks) t).filter (fun e => e.key != k) = mk_entries v ks (t + 1) := by
  have hhead : ((⟨k, v, t⟩ : CacheEntry α).key != k) = false := by simp
  simp only [mk_entries, List.filter_cons, hhead, Bool.false_eq_true, if_false]
  apply filter_ne_key_all
  intro x hx he
  apply hk
  have hmem := List.mem_map_of_mem (fun e => e.key) hx
  rw [mk_entries_map_key] at hmem
  exact he ▸ hmem

theorem cache_set_at_capacity {α : Type} (max_size : Nat) (cache : List (CacheEntry α))
    (k : String) (v : α) (now : Nat) (okk : String) (hlen : max_size ≤ cache.length)
    (hok : oldest_key cache = some okk) :
    cache_set max_size cache k v now =
      pyDictSet (cache.filter (fun e => e.key != okk)) k v now := by
  unfold cache_set
  rw [if_pos hlen, hok]

theorem cache_set_below_capacity {α : Type} (max_size : Nat) (cache : List (CacheEntry α))
    (k : String) (v : α) (now : Nat) (hlen : cache.length < max_size) :
    cache_set max_size cache k v now = pyDictSet cache k v now := by
  unfold cache_set
  rw [if_neg (by omega)]

theorem fill_from_append {α : Type} (max_size : Nat) (v : α) :
    ∀ (ks : List String) (k : String) (cache : List (CacheEntry α)) (t0 : Nat),
      fill_from max_size v cache t0 (ks ++ [k]) =
        cache_set max_size (fill_from max_size v cache t0 ks) k v (t0 + ks.length) := by
  intro ks
  induction ks with
  | nil => intro k cache t0; rfl
  | cons x xs ih =>
    intro k cache t0
    simp only [List.cons_append, fill_from, List.append_eq]
    rw [ih]
    simp only [List.length_cons]
    have : t0 + 1 + xs.length = t0 + (xs.length + 1) := by omega
    rw [this]

theorem fill_cache_spec {α : Type} (v : α) (max_size : Nat) (hms : 0 < max_size) :
    ∀ ks : List String, ks.Nodup →
      fill_cache max_size v ks =
        mk_entries v (ks.drop (ks.length - max_size)) (ks.length - max_size) := by
  intro ks
  induction ks using List.reverseRecOn with
  | nil => intro _; simp [fill_cache, fill_from, mk_entries]
  | append_singleton ks k ih =>
    intro hnd
    rw [List.nodup_append] at hnd
    obtain ⟨hksnd, -, hdisj⟩ := hnd
    have hk : k ∉ ks := fun h => hdisj h (by simp)
    have hfill : fill_cache max_size v (ks ++ [k]) =
        cache_set max_size (fill_cache max_size v ks) k v ks.length := by
      unfold fill_cache
      rw [fill_from_append]
      simp
    rw [hfill, ih hksnd]
    by_cases hcase : max_size ≤ ks.length
    · -- at capacity: the oldest entry is evicted before the new key is appended
      have hdlen : (ks.drop (ks.length - max_size)).length = max_size := by
        rw [List.length_drop]
        omega
      obtain ⟨j, rest, hjr⟩ : ∃ j rest, ks.drop (ks.length - max_size) = j :: rest := by
        cases hdr : ks.drop (ks.length - max_size) with
        | nil => rw [hdr] at hdlen; simp at hdlen; omega
        | cons j rest => exact ⟨j, rest, rfl⟩
      have hdropnd : (ks.drop (ks.length - max_size)).Nodup :=
        hksnd.sublist (List.drop_sublist _ _)
      have hjrest : j ∉ rest := by
        rw [hjr] at hdropnd
        exact (List.nodup_cons.mp hdropnd).1
      have hrestlen : rest.length = max_size - 1 := by
        rw [hjr] at hdlen
        simp only [List.length_cons] at hdlen
        omega
      rw [hjr]
      have hclen : (mk_entries v (j :: rest) (ks.length - max_size)).length = max_size := by
        rw [mk_entries_length]
        simp only [List.length_cons]
        omega
      rw [cache_set_at_capacity max_size _ k v ks.length j (by rw [hclen])
        (oldest_key_mk_entries v j rest _),
        mk_entries_filter_head v j rest _ hjrest]
      have hsub : ∀ x ∈ rest, x ∈ ks := by
        intro x hx
        have : x ∈ ks.drop (ks.length - max_size) := by
          rw [hjr]; exact List.mem_cons_of_mem _ hx
        exact List.mem_of_mem_drop this
      rw [pyDictSet_fresh]
      · have hts : ks.length - max_size + 1 + rest.length = ks.length := by omega
        have hrhs : mk_entries v (rest ++ [k]) (ks.length - max_size + 1) =
            mk_entries v rest (ks.length - max_size + 1) ++ [⟨k, v, ks.length⟩] := by
          rw [mk_entries_append]
          simp [mk_entries, hts]
        have hdrop1 : (ks ++ [k]).drop ((ks ++ [k]).length - max_size) = rest ++ [k] := by
          have hlen1 : (ks ++ [k]).length - max_size = ks.length - max_size + 1 := by
            simp
            omega
          rw [hlen1, List.drop_append_eq_append_drop]
          have h1 : ks.drop (ks.length - max_size + 1) = rest := by
            have := congrArg (List.drop 1) hjr
            simpa [List.drop_drop, Nat.add_comm] using this
          have h2 : ks.length - max_size + 1 - ks.length = 0 := by omega
          rw [h1, h2]
          simp
        rw [hdrop1]
        have hstart : (ks ++ [k]).length - max_size = ks.length - max_size + 1 := by
          simp
          omega
        rw [hstart, hrhs]
      · intro x hx he
        apply hk
        have hmem := List.mem_map_of_mem (fun e => e.key) hx
        rw [mk_entries_map_key] at hmem
        exact he ▸ (hsub _ hmem)
    · -- below capacity: the new entry is simply appended
      have hd0 : ks.length - max_size = 0 := by omega
      rw [hd0]
      simp only [List.drop_zero]
      rw [cache_set_below_capacity max_size _ k v ks.length
        (by rw [mk_entries_length]; omega)]
      rw [pyDictSet_fresh]
      · have hd0' : (ks ++ [k]).length - max_size = 0 := by
          simp
          omega
        rw [hd0']
        simp only [List.drop_zero]
        rw [mk_entries_append]
        simp [mk_entries]
      · intro x hx he
        apply hk
        have hmem := List.mem_map_of_mem (fun e => e.key) hx
        rw [mk_entries_map_key] at hmem
        exact he ▸ hmem

theorem filter_ne_key_split {α : Type} (l1 l2 : List (CacheEntry α)) (e : CacheEntry α)
    (h1 : ∀ x ∈ l1, x.key ≠ e.key) (h2 : ∀ x ∈ l2, x.key ≠ e.key) :
    (l1 ++ e :: l2).filter (fun x => x.key != e.key) = l1 ++ l2 := by
  rw [List.filter_append, filter_ne_key_all e.key l1 h1]
  congr 1
  have hhead : (e.key != e.key) = false := by simp
  simp only [List.filter_cons, hhead, Bool.false_eq_true, if_false]
  exact filter_ne_key_all e.key l2 h2

theorem nodup_keys_split {α : Type} (l1 l2 : List (CacheEntry α)) (e : CacheEntry α)
    (hnd : ((l1 ++ e :: l2).map (fun x => x.key)).Nodup) :
    (∀ x ∈ l1, x.key ≠ e.key) ∧ (∀ x ∈ l2, x.key ≠ e.key) := by
  rw [List.map_append, List.nodup_append] at hnd
  obtain ⟨-, hcons, hdisj⟩ := hnd
  rw [List.map_cons, List.nodup_cons] at hcons
  obtain ⟨hek, -⟩ := hcons
  constructor
  · intro x hx hxe
    exact hdisj (List.mem_map_of_mem _ hx) (by simp [hxe])
  · intro x hx hxe
    exact hek (hxe ▸ List.mem_map_of_mem (fun x => x.key) hx)

theorem pyDictSet_mem {α : Type} (cache : List (CacheEntry α)) (k : String) (v : α)
    (now : Nat) : (⟨k, v, now⟩ : CacheEntry α) ∈ pyDictSet cache k v now := by
  unfold pyDictSet
  by_cases h : cache.any (fun e => e.key == k) = true
  · rw [if_pos h]
    rcases List.any_eq_true.mp h with ⟨x, hx, hxk⟩
    exact List.mem_map.mpr ⟨x, hx, by rw [if_pos hxk]⟩
  · rw [if_neg h]
    simp

theorem pyDictSet_mem_src {α : Type} (cache : List (CacheEntry α)) (k : String) (v : α)
    (now : Nat) (e : CacheEntry α) (he : e ∈ pyDictSet cache k v now) :
    e = ⟨k, v, now⟩ ∨ e ∈ cache := by
  unfold pyDictSet at he
  by_cases h : cache.any (fun e => e.key == k) = true
  · rw [if_pos h] at he
    rcases List.mem_map.mp he with ⟨x, hx, hxe⟩
    by_cases hxk : (x.key == k) = true
    · rw [if_pos hxk] at hxe
      exact Or.inl hxe.symm
    · rw [if_neg hxk] at hxe
      exact Or.inr (hxe ▸ hx)
  · rw [if_neg h] at he
    rcases List.mem_append.mp he with hin | hnew
    · exact Or.inr hin
    · exact Or.inl (List.mem_singleton.mp hnew)

theorem pyDictSet_present_length {α : Type} (cache : List (CacheEntry α)) (k : String)
    (v : α) (now : Nat) (h : ∃ x ∈ cache, x.key = k) :
    (pyDictSet cache k v now).length = cache.length := by
  unfold pyDictSet
  rw [if_pos]
  · exact List.length_map _ _
  · rcases h with ⟨x, hx, hxk⟩
    exact List.any_eq_true.mpr ⟨x, hx, by simp [hxk]⟩

theorem pyDictSet_length_le {α : Type} (cache : List (CacheEntry α)) (k : String)
    (v : α) (now : Nat) : (pyDictSet cache k v now).length ≤ cache.length + 1 := by
  unfold pyDictSet
  by_cases h : cache.any (fun e => e.key == k) = true
  · rw [if_pos h, List.length_map]
    omega
  · rw [if_neg h]
    simp

theorem filter_ne_mem_length_lt {α : Type} :
    ∀ (l : List (CacheEntry α)) (x : CacheEntry α), x ∈ l →
      (l.filter (fun e => e.key != x.key)).length < l.length := by
  intro l
  induction l with
  | nil => intro x hx; exact absurd hx (List.not_mem_nil x)
  | cons a as ih =>
    intro x hx
    rcases List.mem_cons.mp hx with hxa | hmem
    · have hhead : (a.key != x.key) = false := by rw [hxa]; simp
      simp only [List.filter_cons, hhead, Bool.false_eq_true, if_false, List.length_cons]
      have hle := List.length_filter_le (fun e => e.key != x.key) as
      omega
    · have hlt := ih x hmem
      by_cases hhead : (a.key != x.key) = true
      · simp only [List.filter_cons, hhead, if_true, List.length_cons]
        omega
      · simp only [List.filter_cons, hhead, Bool.false_eq_true, if_false,
          List.length_cons]
        omega

theorem cache_set_length_le {α : Type} (max_size : Nat) (cache : List (CacheEntry α))
    (key : String) (v : α) (now : Nat) (hms : 0 < max_size)
    (hlen : cache.length ≤ max_size) :
    (cache_set max_size cache key v now).length ≤ max_size := by
  by_cases hcap : max_size ≤ cache.length
  · cases cache with
    | nil =>
      simp only [List.length_nil] at hcap
      omega
    | cons e es =>
      have hok : oldest_key (e :: es) = some ((es.foldl pickOlder e).key) := rfl
      rw [cache_set_at_capacity max_size _ key v now _ hcap hok]
      have h1 := pyDictSet_length_le ((e :: es).filter
        (fun x => x.key != (es.foldl pickOlder e).key)) key v now
      have h2 := filter_ne_mem_length_lt (e :: es) (es.foldl pickOlder e)
        (foldl_pickOlder_mem es e)
      omega
  · rw [cache_set_below_capacity max_size cache key v now (by omega)]
    have h1 := pyDictSet_length_le cache key v now
    omega

theorem cache_set_foldl_bound {α : Type} (max_size : Nat) (hms : 0 < max_size) :
    ∀ (ops : List (String × α × Nat)) (start : List (CacheEntry α)),
      start.length ≤ max_size →
      (ops.foldl (fun c op => cache_set max_size c op.1 op.2.1 op.2.2) start).length
        ≤ max_size := by
  intro ops
  induction ops with
  | nil => intro start h; simpa using h
  | cons op rest ih =>
    intro start h
    simp only [List.foldl_cons]
    exact ih _ (cache_set_length_le max_size start op.1 op.2.1 op.2.2 hms h)

/-! ## Claims C6, C7, C10: the SimpleCache -/

/-- Claim C6: the cache never holds more than `max_size` entries — starting from any
cache within the bound, every sequence of `set` calls keeps `size()` at most
`max_size`; after inserting `max_size + kextra` distinct keys (`kextra > 0`, strictly
increasing timestamps) into an empty cache, `size()` equals `max_size` and the `kextra`
earliest-inserted keys are absent; moreover every insertion of a fresh key into a cache
at capacity with distinct keys evicts exactly one entry — a minimal-timestamp one —
even if that entry has not expired. -/
theorem C6_cache_bound {α : Type} (v : α) (max_size kextra : Nat) (ks : List String)
    (hms : 0 < max_size) (hnd : ks.Nodup) (hlen : ks.length = max_size + kextra)
    (hk : 0 < kextra) :
    (∀ (start : List (CacheEntry α)) (ops : List (String × α × Nat)),
      cache_size start ≤ max_size →
      cache_size (ops.foldl (fun c op => cache_set max_size c op.1 op.2.1 op.2.2) start)
        ≤ max_size) ∧
    cache_size (fill_cache max_size v ks) = max_size ∧
    (∀ key ∈ ks.take kextra, ∀ e ∈ fill_cache max_size v ks, e.key ≠ key) ∧
    (∀ (cache : List (CacheEntry α)) (key : String) (vv : α) (now : Nat),
      (cache.map (fun x => x.key)).Nodup → cache.length = max_size →
      (∀ e ∈ cache, e.key ≠ key) →
      ∃ evicted ∈ cache, (∀ x ∈ cache, evicted.timestamp ≤ x.timestamp) ∧
        cache_set max_size cache key vv now =
          cache.filter (fun x => x.key != evicted.key) ++ [⟨key, vv, now⟩] ∧
        cache_size (cache_set max_size cache key vv now) = max_size) := by
  have hdk : ks.length - max_size = kextra := by omega
  have hspec := fill_cache_spec v max_size hms ks hnd
  rw [hdk] at hspec
  refine ⟨?_, ?_, ?_, ?_⟩
  · intro start ops h
    exact cache_set_foldl_bound max_size hms ops start h
  · rw [hspec]
    unfold cache_size
    rw [mk_entries_length, List.length_drop]
    omega
  · intro key hkey e he heq
    rw [hspec] at he
    have hmem := List.mem_map_of_mem (fun e => e.key) he
    rw [mk_entries_map_key] at hmem
    exact List.disjoint_take_drop hnd (le_refl kextra) hkey (heq ▸ hmem)
  · intro cache key vv now hcnd hclen hfresh
    cases cache with
    | nil =>
      simp only [List.length_nil] at hclen
      omega
    | cons e es =>
      have hcap : max_size ≤ (e :: es).length := le_of_eq hclen.symm
      have hok : oldest_key (e :: es) = some ((es.foldl pickOlder e).key) := rfl
      refine ⟨es.foldl pickOlder e, foldl_pickOlder_mem es e, ?_, ?_, ?_⟩
      · intro x hx
        rcases List.mem_cons.mp hx with hxe | hmem
        · rw [hxe]; exact (foldl_pickOlder_min es e).1
        · exact (foldl_pickOlder_min es e).2 x hmem
      · rw [cache_set_at_capacity max_size _ key vv now _ hcap hok]
        apply pyDictSet_fresh
        intro x hx
        exact hfresh x (List.mem_of_mem_filter hx)
      · rw [cache_set_at_capacity max_size _ key vv now _ hcap hok]
        rw [pyDictSet_fresh _ key vv now
          (fun x hx => hfresh x (List.mem_of_mem_filter hx))]
        obtain ⟨l1, l2, hsplit⟩ :=
          List.append_of_mem (foldl_pickOlder_mem es e)
        rw [hsplit] at hcnd hclen ⊢
        obtain ⟨h1, h2⟩ := nodup_keys_split l1 l2 _ hcnd
        rw [filter_ne_key_split l1 l2 _ h1 h2]
        unfold cache_size
        simp only [List.length_append, List.length_cons, List.length_nil] at hclen ⊢
        omega

/-- Witness for C6 at `max_size = 2` and keys `a, b, c` (`kextra = 1`). -/
theorem C6_cache_bound_witness :
    (0 < 2 ∧ (["a", "b", "c"] : List String).Nodup ∧
      (["a", "b", "c"] : List String).length = 2 + 1 ∧ 0 < 1) ∧
    ((∀ (start : List (CacheEntry Nat)) (ops : List (String × Nat × Nat)),
      cache_size start ≤ 2 →
      cache_size (ops.foldl (fun c op => cache_set 2 c op.1 op.2.1 op.2.2) start)
        ≤ 2) ∧
    cache_size (fill_cache 2 (0 : Nat) ["a", "b", "c"]) = 2 ∧
      (∀ key ∈ (["a", "b", "c"] : List String).take 1,
        ∀ e ∈ fill_cache 2 (0 : Nat) ["a", "b", "c"], e.key ≠ key) ∧
      (∀ (cache : List (CacheEntry Nat)) (key : String) (vv : Nat) (now : Nat),
        (cache.map (fun x => x.key)).Nodup → cache.length = 2 →
        (∀ e ∈ cache, e.key ≠ key) →
        ∃ evicted ∈ cache, (∀ x ∈ cache, evicted.timestamp ≤ x.timestamp) ∧
          cache_set 2 cache key vv now =
            cache.filter (fun x => x.key != evicted.key) ++ [⟨key, vv, now⟩] ∧
          cache_size (cache_set 2 cache key vv now) = 2)) :=
  ⟨⟨by decide, by decide, by decide, by decide⟩,
    C6_cache_bound 0 2 1 ["a", "b", "c"] (by decide) (by decide) (by decide) (by decide)⟩

/-- Claim C7: a key inserted at timestamp `t0` with time-to-live `ttl` is a hit
(returning the stored value, cache unchanged) at every `now ≤ t0 + ttl`, and a miss
that also removes the entry at every `now` with `now - t0 > ttl`. -/
theorem C7_cache_ttl {α : Type} (ttl : Nat) (cache : List (CacheEntry α))
    (key : String) (now : Nat) (e : CacheEntry α)
    (hfind : cache.find? (fun x => x.key == key) = some e) :
    (now ≤ e.timestamp + ttl → cache_get ttl cache key now = (some e.value, cache)) ∧
    (e.timestamp + ttl < now →
      cache_get ttl cache key now = (none, cache.filter (fun x => x.key != key))) := by
  have hget : cache_get ttl cache key now =
      if ttl < now - e.timestamp then (none, cache.filter (fun x => x.key != key))
      else (some e.value, cache) := by
    unfold cache_get
    rw [hfind]
  constructor
  · intro h
    rw [hget, if_neg (by omega)]
  · intro h
    rw [hget, if_pos (by omega)]

/-- Witness for C7: insertion at timestamp 5, ttl 10, hit at 15, miss at 16. -/
theorem C7_cache_ttl_witness :
    ([⟨"q", 7, 5⟩] : List (CacheEntry Nat)).find? (fun x => x.key == "q") =
        some ⟨"q", 7, 5⟩ ∧
    cache_get 10 ([⟨"q", 7, 5⟩] : List (CacheEntry Nat)) "q" 15 = (some 7, [⟨"q", 7, 5⟩]) ∧
    cache_get 10 ([⟨"q", 7, 5⟩] : List (CacheEntry Nat)) "q" 16 = (none, []) :=
  ⟨by decide,
    (C7_cache_ttl 10 [⟨"q", 7, 5⟩] "q" 15 ⟨"q", 7, 5⟩ (by decide)).1 (by decide),
    (C7_cache_ttl 10 [⟨"q", 7, 5⟩] "q" 16 ⟨"q", 7, 5⟩ (by decide)).2 (by decide)⟩

/-- Claim C10: `set` on a cache holding `max_size` or more entries evicts the oldest
entry before the write even when the key is already present, so overwriting an
existing key whose entry is not the oldest shrinks the cache by one entry while the
key stays present with the new value, and the oldest key disappears. -/
theorem C10_cache_set_overwrite {α : Type} (max_size : Nat)
    (cache : List (CacheEntry α)) (key : String) (v : α) (now : Nat) (okk : String)
    (hnd : (cache.map (fun x => x.key)).Nodup) (hcap : max_size ≤ cache.length)
    (hok : oldest_key cache = some okk) (hpresent : ∃ x ∈ cache, x.key = key)
    (hne : okk ≠ key) :
    cache_size (cache_set max_size cache key v now) = cache.length - 1 ∧
    (∀ e ∈ cache_set max_size cache key v now, e.key ≠ okk) ∧
    (⟨key, v, now⟩ : CacheEntry α) ∈ cache_set max_size cache key v now := by
  rw [cache_set_at_capacity max_size cache key v now okk hcap hok]
  obtain ⟨ev, hev, hevk, -⟩ := oldest_key_spec cache okk hok
  have hfiltered_present : ∃ x ∈ cache.filter (fun x => x.key != okk), x.key = key := by
    rcases hpresent with ⟨x, hx, hxk⟩
    refine ⟨x, List.mem_filter.mpr ⟨hx, ?_⟩, hxk⟩
    simp only [bne_iff_ne, ne_eq, hxk]
    exact fun h => hne h.symm
  refine ⟨?_, ?_, pyDictSet_mem _ key v now⟩
  · unfold cache_size
    rw [pyDictSet_present_length _ key v now hfiltered_present]
    obtain ⟨l1, l2, hsplit⟩ := List.append_of_mem hev
    rw [hsplit] at hnd ⊢
    obtain ⟨h1, h2⟩ := nodup_keys_split l1 l2 _ hnd
    rw [← hevk, filter_ne_key_split l1 l2 _ h1 h2]
    simp only [List.length_append, List.length_cons]
    omega
  · intro e he
    rcases pyDictSet_mem_src _ key v now e he with heq | hmem
    · rw [heq]
      show key ≠ okk
      exact fun h => hne h.symm
    · have hf := List.of_mem_filter hmem
      exact bne_iff_ne.mp hf

/-- Witness for C10: capacity 2, cache `a@0, b@1`, overwriting `b` evicts `a` and
leaves a single entry. -/
theorem C10_cache_set_overwrite_witness :
    ((([⟨"a", 0, 0⟩, ⟨"b", 0, 1⟩] : List (CacheEntry Nat)).map
        (fun x => x.key)).Nodup ∧
      2 ≤ ([⟨"a", 0, 0⟩, ⟨"b", 0, 1⟩] : List (CacheEntry Nat)).length ∧
      oldest_key ([⟨"a", 0, 0⟩, ⟨"b", 0, 1⟩] : List (CacheEntry Nat)) = some "a" ∧
      (∃ x ∈ ([⟨"a", 0, 0⟩, ⟨"b", 0, 1⟩] : List (CacheEntry Nat)), x.key = "b") ∧
      "a" ≠ "b") ∧
    (cache_size (cache_set 2 ([⟨"a", 0, 0⟩, ⟨"b", 0, 1⟩] : List (CacheEntry Nat))
        "b" 5 2) = 2 - 1 ∧
      (∀ e ∈ cache_set 2 ([⟨"a", 0, 0⟩, ⟨"b", 0, 1⟩] : List (CacheEntry Nat)) "b" 5 2,
        e.key ≠ "a") ∧
      (⟨"b", 5, 2⟩ : CacheEntry Nat) ∈
        cache_set 2 ([⟨"a", 0, 0⟩, ⟨"b", 0, 1⟩] : List (CacheEntry Nat)) "b" 5 2) :=
  ⟨⟨by decide, by decide, by decide, by decide, by decide⟩,
    C10_cache_set_overwrite 2 [⟨"a", 0, 0⟩, ⟨"b", 0, 1⟩] "b" 5 2 "a"
      (by decide) (by decide) (by decide) (by decide) (by decide)⟩

/-! ## Claim C2: the SchemaPruner column fallback -/

/-- Claim C2 counterexample: with highlighting enabled, a table pulled in with no
highlighted column and no primary-key column is emitted with an empty `columns`
list — the primary-key fallback of `_prune_table` cannot produce a column for a
table that has no primary-key columns, so not every emitted table has a column. -/
theorem C2_counterexample :
    ∃ t ∈ (prune_schema true true emptyFallbackSubgraph).tables, t.columns = [] := by
  decide

/-- Claim C2 amended: with column highlighting enabled, a table whose
highlighted-or-primary-key selection is empty falls back to its primary-key columns,
so every table of the subgraph that has at least one primary-key column is emitted
with a non-empty `columns` list (a table without primary-key columns can come out
empty, as the counterexample shows). -/
theorem C2_prune_schema_nonempty (include_comments highlight_relevant_columns : Bool)
    (subgraph : Subgraph)
    (hpk : ∀ t ∈ subgraph.tables, ∃ c ∈ t.columns, c.primary_key = true) :
    ∀ pt ∈ (prune_schema include_comments highlight_relevant_columns subgraph).tables,
      pt.columns ≠ [] := by
  intro pt hpt
  unfold prune_schema at hpt
  simp only [List.mem_map] at hpt
  obtain ⟨t, ht, rfl⟩ := hpt
  obtain ⟨c, hc, hcpk⟩ := hpk t ht
  have hcols : (prune_table include_comments highlight_relevant_columns t
      (subgraph.highlighted_columns.map (fun h => h.table ++ "." ++ h.column))).columns =
      if (kept_columns include_comments highlight_relevant_columns t
          (subgraph.highlighted_columns.map (fun h => h.table ++ "." ++ h.column))).isEmpty
      then pk_fallback_columns include_comments t
      else kept_columns include_comments highlight_relevant_columns t
        (subgraph.highlighted_columns.map (fun h => h.table ++ "." ++ h.column)) := rfl
  rw [hcols]
  by_cases hempty : (kept_columns include_comments highlight_relevant_columns t
      (subgraph.highlighted_columns.map (fun h => h.table ++ "." ++ h.column))).isEmpty
  · rw [if_pos hempty]
    intro hnil
    have hmem : prune_column include_comments c false ∈
        pk_fallback_columns include_comments t :=
      List.mem_filterMap.mpr ⟨c, hc, by rw [hcpk]; simp⟩
    rw [hnil] at hmem
    exact List.not_mem_nil _ hmem
  · rw [if_neg hempty]
    intro hnil
    rw [hnil] at hempty
    simp at hempty

/-- Witness for C2 at a one-table subgraph whose column is a primary key. -/
theorem C2_prune_schema_nonempty_witness :
    (∀ t ∈ (Subgraph.mk [⟨"users", "", ["id"],
        [⟨"id", "int", false, true, ""⟩]⟩] [] []).tables,
      ∃ c ∈ t.columns, c.primary_key = true) ∧
    (∀ pt ∈ (prune_schema true true (Subgraph.mk [⟨"users", "", ["id"],
        [⟨"id", "int", false, true, ""⟩]⟩] [] [])).tables, pt.columns ≠ []) :=
  ⟨by decide,
    C2_prune_schema_nonempty true true
      (Subgraph.mk [⟨"users", "", ["id"], [⟨"id", "int", false, true, ""⟩]⟩] [] [])
      (by decide)⟩

/-! ## Claim C4: deduplication of highlighted columns -/

/-- Claim C4 counterexample: when `users.city` arises both as a direct column match
and as a concept-related column, the keep-first deduplication keeps the
`direct_match` entry with its match score — not the `concept_match` entry with
fixed score 0.9 that the claim says wins. -/
theorem C4_counterexample :
    identify_highlighted_columns overlapBundle ["users"] =
      [{ table := "users", column := "city", reason := "direct_match", score := 100 }] := by
  decide

theorem find?_append_of_exists {α : Type} (p : α → Bool) :
    ∀ (l1 l2 : List α), (∃ x ∈ l1, p x = true) → (l1 ++ l2).find? p = l1.find? p := by
  intro l1
  induction l1 with
  | nil => intro l2 h; simp at h
  | cons a as ih =>
    intro l2 h
    by_cases hpa : p a = true
    · rw [List.cons_append, List.find?_cons_of_pos _ hpa, List.find?_cons_of_pos _ hpa]
    · rw [List.cons_append, List.find?_cons_of_neg _ hpa, List.find?_cons_of_neg _ hpa]
      apply ih
      rcases h with ⟨x, hx, hpx⟩
      rcases List.mem_cons.mp hx with rfl | hx'
      · exact absurd hpx hpa
      · exact ⟨x, hx', hpx⟩

theorem direct_highlighted_shape (matched_entities : MatchBundle) (tables : List String) :
    ∀ h ∈ direct_highlighted matched_entities tables, h.reason = "direct_match" := by
  intro h hh
  unfold direct_highlighted at hh
  rcases List.mem_filterMap.mp hh with ⟨cm, -, heq⟩
  by_cases hc : tables.contains cm.table_name
  · rw [if_pos hc] at heq
    cases heq
    rfl
  · rw [if_neg hc] at heq
    cases heq

theorem concept_highlighted_shape (matched_entities : MatchBundle) (tables : List String) :
    ∀ h ∈ concept_highlighted matched_entities tables,
      h.reason = "concept_match" ∧ h.score = 90 := by
  intro h hh
  unfold concept_highlighted at hh
  rcases List.mem_flatMap.mp hh with ⟨cm, -, hin⟩
  rcases List.mem_filterMap.mp hin with ⟨rc, -, heq⟩
  by_cases hc : tables.contains rc.table
  · rw [if_pos hc] at heq
    cases heq
    exact ⟨rfl, rfl⟩
  · rw [if_neg hc] at heq
    cases heq

/-- Claim C4 amended: the highlighted-columns list is deduplicated by
`(table, column)` — keys are pairwise distinct — and sorted descending by score;
every entry comes from the direct stage or the concept stage; when a
`(table, column)` pair occurs as a direct column match, the kept entry is the
first-seen `direct_match` one (not the concept one); concept entries carry the
fixed score 0.9. -/
theorem C4_highlighted_dedup (matched_entities : MatchBundle) (tables : List String) :
    ((identify_highlighted_columns matched_entities tables).map highlightedKey).Nodup ∧
    (identify_highlighted_columns matched_entities tables).Pairwise
      (fun a b => b.score ≤ a.score) ∧
    (∀ h ∈ identify_highlighted_columns matched_entities tables,
      h ∈ direct_highlighted matched_entities tables ++
        concept_highlighted matched_entities tables) ∧
    (∀ h ∈ identify_highlighted_columns matched_entities tables,
      (∃ d ∈ direct_highlighted matched_entities tables, highlightedKey d = highlightedKey h) →
      h.reason = "direct_match") ∧
    (∀ h ∈ identify_highlighted_columns matched_entities tables,
      h.reason = "concept_match" → h.score = 90) := by
  unfold identify_highlighted_columns
  set both := direct_highlighted matched_entities tables ++
    concept_highlighted matched_entities tables with hboth
  have hperm := sortDescBy_perm (fun h => h.score) (dedupByKey highlightedKey both)
  refine ⟨?_, sortDescBy_pairwise _ _, ?_, ?_, ?_⟩
  · exact ((hperm.map highlightedKey).nodup_iff).mpr (dedupByKey_nodup_keys highlightedKey both)
  · intro h hh
    exact mem_of_mem_dedupByKey highlightedKey both h (hperm.mem_iff.mp hh)
  · intro h hh ⟨d, hd, hkd⟩
    have hdedup := hperm.mem_iff.mp hh
    have hfind := dedupByKeyAux_find? highlightedKey both [] h hdedup
    rw [hboth, find?_append_of_exists _ _ _
      ⟨d, hd, by simp [hkd]⟩] at hfind
    have hmem := List.mem_of_find?_eq_some hfind
    exact direct_highlighted_shape matched_entities tables h hmem
  · intro h hh hreason
    have hsrc := mem_of_mem_dedupByKey highlightedKey both h (hperm.mem_iff.mp hh)
    rcases List.mem_append.mp hsrc with hdir | hcon
    · have hshape := direct_highlighted_shape matched_entities tables h hdir
      rw [hshape] at hreason
      exact absurd hreason (by decide)
    · exact (concept_highlighted_shape matched_entities tables h hcon).2

/-- Witness for C4 at the overlap bundle: the kept entry for `users.city` is the
direct match. -/
theorem C4_highlighted_dedup_witness :
    ((identify_highlighted_columns overlapBundle ["users"]).map highlightedKey).Nodup ∧
    (∃ d ∈ direct_highlighted overlapBundle ["users"],
      highlightedKey d =
        highlightedKey ⟨"users", "city", "direct_match", 100⟩) ∧
    (⟨"users", "city", "direct_match", 100⟩ : HighlightedColumn) ∈
      identify_highlighted_columns overlapBundle ["users"] ∧
    (⟨"users", "city", "direct_match", 100⟩ : HighlightedColumn).reason = "direct_match" :=
  ⟨(C4_highlighted_dedup overlapBundle ["users"]).1,
    by decide,
    by decide,
    (C4_highlighted_dedup overlapBundle ["users"]).2.2.2.1
      ⟨"users", "city", "direct_match", 100⟩ (by decide) (by decide)⟩

/-! ## Claim C1: subgraph table truncation -/

theorem dedupByKeyAux_key_complete {α : Type} (key : α → String) :
    ∀ (l : List α) (seen : List String) (x : α), x ∈ l → key x ∉ seen →
      ∃ y ∈ dedupByKeyAux key seen l, key y = key x := by
  intro l
  induction l with
  | nil => intro seen x hx _; simp at hx
  | cons a as ih =>
    intro seen x hx hns
    simp only [dedupByKeyAux]
    rcases List.mem_cons.mp hx with rfl | hx'
    · rw [if_neg hns]
      exact ⟨x, by simp, rfl⟩
    · by_cases h : key a ∈ seen
      · rw [if_pos h]
        exact ih seen x hx' hns
      · rw [if_neg h]
        by_cases hkey : key x = key a
        · exact ⟨a, by simp, hkey.symm⟩
        · obtain ⟨y, hy, hky⟩ := ih (key a :: seen) x hx' (by
            simp only [List.mem_cons]
            rintro (h1 | h2)
            · exact hkey h1
            · exact hns h2)
          exact ⟨y, List.mem_cons_of_mem _ hy, hky⟩

/-- First-occurrence-order deduplication is one valid enumeration of a Python set. -/
theorem isSetEnum_dedup : IsSetEnum (dedupByKey (fun s => s)) := by
  intro l
  constructor
  · have h := dedupByKey_nodup_keys (fun s => s) l
    simpa using h
  · intro x
    constructor
    · exact mem_of_mem_dedupByKey _ l x
    · intro hx
      obtain ⟨y, hy, hky⟩ := dedupByKeyAux_key_complete (fun s => s) l [] x hx (by simp)
      exact hky ▸ hy

theorem entry_rows_pairwise (entry_tables : List String) :
    (entry_tables.map (fun e => RelatedRow.mk e 0)).Pairwise
      (fun a b => a.distance ≤ b.distance) := by
  induction entry_tables with
  | nil => simp
  | cons e es ih =>
    simp only [List.map_cons, List.pairwise_cons]
    exact ⟨fun b _ => Nat.zero_le _, ih⟩

/-- Claim C1 amended: writing `list(set(entry + related))[:max_tables]` as an
arbitrary set enumeration, the truncation keeps at most `max_tables` tables, is
duplicate-free and draws only from the entry and reached tables; under the
insertion-order enumeration specifically (one valid set order), entry tables are
kept whenever there are at most `max_tables` of them, and the selection is in
ascending hop order — but for more than `max_tables` entry tables some entry table
is necessarily dropped, and CPython's set order makes the ordering and
entry-preservation parts non-guaranteed in general. -/
theorem C1_retrieve_truncation (setEnum : List String → List String)
    (hse : IsSetEnum setEnum) (entry_tables : List String) (rows : List RelatedRow)
    (max_tables : Nat) (hnd : entry_tables.Nodup)
    (hsorted : rows.Pairwise (fun a b => a.distance ≤ b.distance)) :
    (retrieve_subgraph_tables setEnum entry_tables (Except.ok rows) max_tables).length ≤
      max_tables ∧
    (retrieve_subgraph_tables setEnum entry_tables (Except.ok rows) max_tables).Nodup ∧
    (∀ t ∈ retrieve_subgraph_tables setEnum entry_tables (Except.ok rows) max_tables,
      t ∈ entry_tables ∨ t ∈ rows.map (fun r => r.table_name)) ∧
    (entry_tables.length ≤ max_tables →
      ∀ t ∈ entry_tables,
        t ∈ retrieve_subgraph_tables (dedupByKey (fun s => s)) entry_tables
          (Except.ok rows) max_tables) ∧
    (retrieve_subgraph_tables (dedupByKey (fun s => s)) entry_tables (Except.ok rows)
        max_tables).Pairwise
      (fun a b => hop_distance entry_tables rows a ≤ hop_distance entry_tables rows b) := by
  have hrt : ∀ f : List String → List String,
      retrieve_subgraph_tables f entry_tables (Except.ok rows) max_tables =
        (f (entry_tables ++ rows.map (fun r => r.table_name))).take max_tables := by
    intro f
    rfl
  refine ⟨?_, ?_, ?_, ?_, ?_⟩
  · rw [hrt]
    exact List.length_take_le _ _
  · rw [hrt]
    exact ((hse _).1).sublist (List.take_sublist _ _)
  · intro t ht
    rw [hrt] at ht
    have hmem := (hse _).2 t |>.mp (List.mem_of_mem_take ht)
    exact List.mem_append.mp hmem
  · intro hle t ht
    have hsplit : dedupByKey (fun s => s)
        (entry_tables ++ rows.map (fun r => r.table_name)) =
        entry_tables ++ dedupByKeyAux (fun s => s)
          (entry_tables.reverse.map (fun s => s) ++ []) (rows.map (fun r => r.table_name)) := by
      unfold dedupByKey
      exact dedupByKeyAux_append (fun s => s) entry_tables _ [] (by simpa using hnd)
        (fun k _ hk => List.not_mem_nil k hk)
    rw [hrt, hsplit, List.take_append_eq_append_take, List.take_of_length_le hle]
    exact List.mem_append_left _ ht
  · have hrows' : (entry_tables.map (fun e => RelatedRow.mk e 0) ++ rows).map
        (fun r => r.table_name) =
        entry_tables ++ rows.map (fun r => r.table_name) := by
      rw [List.map_append, List.map_map]
      congr 1
      have hcomp : ((fun r : RelatedRow => r.table_name) ∘ fun e => RelatedRow.mk e 0) =
          fun e : String => e := rfl
      rw [hcomp]
      exact List.map_id' entry_tables
    have hp : (entry_tables.map (fun e => RelatedRow.mk e 0) ++ rows).Pairwise
        (fun a b => a.distance ≤ b.distance) := by
      rw [List.pairwise_append]
      refine ⟨entry_rows_pairwise entry_tables, hsorted, ?_⟩
      intro a ha b _
      rcases List.mem_map.mp ha with ⟨s, -, rfl⟩
      exact Nat.zero_le _
    have hDpw : (dedupByKey (fun r : RelatedRow => r.table_name)
        (entry_tables.map (fun e => RelatedRow.mk e 0) ++ rows)).Pairwise
        (fun a b => a.distance ≤ b.distance) :=
      hp.sublist (dedupByKey_sublist _ _)
    have hhop : ∀ r ∈ dedupByKey (fun r : RelatedRow => r.table_name)
        (entry_tables.map (fun e => RelatedRow.mk e 0) ++ rows),
        hop_distance entry_tables rows r.table_name = r.distance := by
      intro r hr
      unfold hop_distance
      rw [dedupByKeyAux_find? (fun r : RelatedRow => r.table_name) _ [] r hr]
    have hmap : (dedupByKey (fun r : RelatedRow => r.table_name)
        (entry_tables.map (fun e => RelatedRow.mk e 0) ++ rows)).map
          (fun r => r.table_name) =
        dedupByKey (fun s => s) (entry_tables ++ rows.map (fun r => r.table_name)) := by
      unfold dedupByKey
      rw [dedupByKeyAux_map, hrows']
    have hpwD : ((dedupByKey (fun r : RelatedRow => r.table_name)
        (entry_tables.map (fun e => RelatedRow.mk e 0) ++ rows)).map
          (fun r => r.table_name)).Pairwise
        (fun a b => hop_distance entry_tables rows a ≤ hop_distance entry_tables rows b) := by
      rw [List.pairwise_map]
      refine hDpw.imp_of_mem ?_
      intro a b ha hb hab
      rw [hhop a ha, hhop b hb]
      exact hab
    rw [hrt, ← hmap]
    exact hpwD.sublist (List.take_sublist _ _)

/-- Claim C1 counterexample: with entry tables `a, b, c` and `max_tables = 2` the
truncation drops the entry table `c`. Any duplicate-free enumeration of the
three-element set truncated to two elements omits one of them, so some entry table
is lost under every possible set order; shown here for the insertion order, which
is a valid set enumeration. -/
theorem C1_counterexample :
    IsSetEnum (dedupByKey (fun s => s)) ∧
    retrieve_subgraph_tables (dedupByKey (fun s => s)) ["a", "b", "c"]
      (Except.ok []) 2 = ["a", "b"] ∧
    "c" ∉ retrieve_subgraph_tables (dedupByKey (fun s => s)) ["a", "b", "c"]
      (Except.ok []) 2 :=
  ⟨isSetEnum_dedup, by decide, by decide⟩

/-- Witness for C1 at one entry table and one traversal row. -/
theorem C1_retrieve_truncation_witness :
    (["users"] : List String).Nodup ∧
    ([⟨"orders", 1⟩] : List RelatedRow).Pairwise (fun a b => a.distance ≤ b.distance) ∧
    ((retrieve_subgraph_tables (dedupByKey (fun s => s)) ["users"]
        (Except.ok [⟨"orders", 1⟩]) 10).length ≤ 10 ∧
      (retrieve_subgraph_tables (dedupByKey (fun s => s)) ["users"]
        (Except.ok [⟨"orders", 1⟩]) 10).Nodup ∧
      (∀ t ∈ retrieve_subgraph_tables (dedupByKey (fun s => s)) ["users"]
          (Except.ok [⟨"orders", 1⟩]) 10,
        t ∈ (["users"] : List String) ∨
          t ∈ ([⟨"orders", 1⟩] : List RelatedRow).map (fun r => r.table_name)) ∧
      ((["users"] : List String).length ≤ 10 →
        ∀ t ∈ (["users"] : List String),
          t ∈ retrieve_subgraph_tables (dedupByKey (fun s => s)) ["users"]
            (Except.ok [⟨"orders", 1⟩]) 10) ∧
      (retrieve_subgraph_tables (dedupByKey (fun s => s)) ["users"]
          (Except.ok [⟨"orders", 1⟩]) 10).Pairwise
        (fun a b => hop_distance ["users"] [⟨"orders", 1⟩] a ≤
          hop_distance ["users"] [⟨"orders", 1⟩] b)) :=
  ⟨by decide, by decide,
    C1_retrieve_truncation (dedupByKey (fun s => s)) isSetEnum_dedup ["users"]
      [⟨"orders", 1⟩] 10 (by decide) (by decide)⟩

/-! ## Claim C8: fuzzy-pass gating in column matching -/

/-- Claim C8: the fuzzy pass of `_match_columns` runs only when the exact pass
returned no rows; for columns it runs only when the keyword has at least 3
characters (below that the all-columns probe is not even issued and the result is
empty); a candidate is accepted exactly when the maximum of its name similarity
and comment similarity is ≥ the fuzzy threshold; and the similarity wrapper stays
within the normalized range whenever the underlying ratio does. -/
theorem C8_fuzzy_gating (conn : GraphConn) (simFn : String → String → Nat)
    (fuzzy_threshold : Nat) (keyword : String) (ex : List ColumnRow)
    (hex : conn.columnsExact keyword = Except.ok ex) :
    (ex ≠ [] → match_columns conn simFn fuzzy_threshold keyword =
      Except.ok (ex.map (fun m =>
        { table_name := m.table_name, name := m.name, comment := m.comment,
          type := m.type, score := 100, match_type := "exact" }))) ∧
    (ex = [] → keyword.length < 3 →
      match_columns conn simFn fuzzy_threshold keyword = Except.ok []) ∧
    (ex = [] → 3 ≤ keyword.length → ∀ all_columns,
      conn.columnsAll () = Except.ok all_columns →
      ∃ fuzzy, match_columns conn simFn fuzzy_threshold keyword = Except.ok fuzzy ∧
        ∀ m, m ∈ fuzzy ↔ ∃ col ∈ all_columns,
          fuzzy_threshold ≤ max (calculate_similarity simFn keyword col.name)
            (calculate_similarity simFn keyword col.comment) ∧
          m = { table_name := col.table_name, name := col.name, comment := col.comment,
                type := col.type,
                score := max (calculate_similarity simFn keyword col.name)
                  (calculate_similarity simFn keyword col.comment),
                match_type := "fuzzy" }) ∧
    ((∀ a b, simFn a b ≤ 100) →
      ∀ t1 t2, calculate_similarity simFn t1 t2 ≤ 100) := by
  have hm : match_columns conn simFn fuzzy_threshold keyword =
      (if ex.isEmpty then
        (if 3 ≤ keyword.length then
          (match conn.columnsAll () with
           | .error e => .error e
           | .ok all_columns =>
             .ok (all_columns.filterMap (fun col =>
               let max_similarity := max (calculate_similarity simFn keyword col.name)
                 (calculate_similarity simFn keyword col.comment)
               if fuzzy_threshold ≤ max_similarity then
                 some { table_name := col.table_name, name := col.name,
                        comment := col.comment, type := col.type,
                        score := max_similarity, match_type := "fuzzy" }
               else none)))
        else Except.ok [])
      else Except.ok (ex.map (fun m =>
        { table_name := m.table_name, name := m.name, comment := m.comment,
          type := m.type, score := 100, match_type := "exact" }))) := by
    unfold match_columns
    rw [hex]
  refine ⟨?_, ?_, ?_, ?_⟩
  · intro hne
    have hcond : ex.isEmpty = false := by
      cases ex with
      | nil => exact absurd rfl hne
      | cons a l => rfl
    rw [hm, hcond]
    simp
  · intro he hlen
    rw [hm, he]
    simp only [List.isEmpty_nil, if_true]
    rw [if_neg (by omega)]
  · intro he hlen all_columns hall
    rw [hm, he]
    simp only [List.isEmpty_nil, if_true]
    rw [if_pos hlen, hall]
    refine ⟨_, rfl, ?_⟩
    intro m
    rw [List.mem_filterMap]
    constructor
    · rintro ⟨col, hcol, heq⟩
      by_cases hacc : fuzzy_threshold ≤ max (calculate_similarity simFn keyword col.name)
          (calculate_similarity simFn keyword col.comment)
      · refine ⟨col, hcol, hacc, ?_⟩
        simp only [if_pos hacc] at heq
        exact (Option.some.injEq _ _ ▸ heq).symm
      · simp only [if_neg hacc] at heq
        cases heq
    · rintro ⟨col, hcol, hacc, rfl⟩
      refine ⟨col, hcol, ?_⟩
      simp only [if_pos hacc]
  · intro hr t1 t2
    unfold calculate_similarity
    by_cases hz : t1 = "" ∨ t2 = ""
    · rw [if_pos hz]
      omega
    · rw [if_neg hz]
      exact hr _ _

/-- Witness for C8: an empty exact pass over a one-column catalog, keyword `age`,
equality similarity, threshold 0.85. -/
theorem C8_fuzzy_gating_witness :
    (GraphConn.mk (fun _ => Except.ok []) (fun _ => Except.ok [])
        (fun _ => Except.ok []) (fun _ => Except.ok [⟨"users", "age", "", "int"⟩])
        (fun _ => Except.ok [])).columnsExact "age" = Except.ok [] ∧
    (([] : List ColumnRow) = [] → 3 ≤ ("age" : String).length → ∀ all_columns,
      (GraphConn.mk (fun _ => Except.ok []) (fun _ => Except.ok [])
          (fun _ => Except.ok []) (fun _ => Except.ok [⟨"users", "age", "", "int"⟩])
          (fun _ => Except.ok [])).columnsAll () = Except.ok all_columns →
      ∃ fuzzy, match_columns (GraphConn.mk (fun _ => Except.ok [])
          (fun _ => Except.ok []) (fun _ => Except.ok [])
          (fun _ => Except.ok [⟨"users", "age", "", "int"⟩]) (fun _ => Except.ok []))
          (fun a b => if a == b then 100 else 0) 85 "age" = Except.ok fuzzy ∧
        ∀ m, m ∈ fuzzy ↔ ∃ col ∈ all_columns,
          85 ≤ max (calculate_similarity (fun a b => if a == b then 100 else 0)
              "age" col.name)
            (calculate_similarity (fun a b => if a == b then 100 else 0) "age" col.comment) ∧
          m = { table_name := col.table_name, name := col.name, comment := col.comment,
                type := col.type,
                score := max (calculate_similarity (fun a b => if a == b then 100 else 0)
                    "age" col.name)
                  (calculate_similarity (fun a b => if a == b then 100 else 0) "age"
                    col.comment),
                match_type := "fuzzy" }) :=
  ⟨rfl,
    (C8_fuzzy_gating (GraphConn.mk (fun _ => Except.ok []) (fun _ => Except.ok [])
        (fun _ => Except.ok []) (fun _ => Except.ok [⟨"users", "age", "", "int"⟩])
        (fun _ => Except.ok [])) (fun a b => if a == b then 100 else 0) 85 "age" []
      rfl).2.2.1⟩

/-! ## Claims C3 and C9: match_entities error propagation and bundle invariants -/

theorem match_tables_eq (conn : GraphConn) (simFn : String → String → Nat)
    (fuzzy_threshold : Nat) (keyword : String) (ex : List TableRow)
    (hex : conn.tablesExact keyword = Except.ok ex) :
    match_tables conn simFn fuzzy_threshold keyword =
      (if ex.isEmpty then
        (match conn.tablesAll () with
         | .error e => .error e
         | .ok all_tables =>
           .ok (all_tables.filterMap (fun t =>
             let max_similarity := max (calculate_similarity simFn keyword t.name)
               (calculate_similarity simFn keyword t.comment)
             if fuzzy_threshold ≤ max_similarity then
               some { name := t.name, comment := t.comment, score := max_similarity,
                      match_type := "fuzzy" }
             else none)))
      else Except.ok (ex.map (fun m =>
        { name := m.name, comment := m.comment, score := 100,
          match_type := "exact" }))) := by
  unfold match_tables
  rw [hex]

theorem match_columns_eq (conn : GraphConn) (simFn : String → String → Nat)
    (fuzzy_threshold : Nat) (keyword : String) (ex : List ColumnRow)
    (hex : conn.columnsExact keyword = Except.ok ex) :
    match_columns conn simFn fuzzy_threshold keyword =
      (if ex.isEmpty then
        (if 3 ≤ keyword.length then
          (match conn.columnsAll () with
           | .error e => .error e
           | .ok all_columns =>
             .ok (all_columns.filterMap (fun col =>
               let max_similarity := max (calculate_similarity simFn keyword col.name)
                 (calculate_similarity simFn keyword col.comment)
               if fuzzy_threshold ≤ max_similarity then
                 some { table_name := col.table_name, name := col.name,
                        comment := col.comment, type := col.type,
                        score := max_similarity, match_type := "fuzzy" }
               else none)))
        else Except.ok [])
      else Except.ok (ex.map (fun m =>
        { table_name := m.table_name, name := m.name, comment := m.comment,
          type := m.type, score := 100, match_type := "exact" }))) := by
  unfold match_columns
  rw [hex]

theorem match_tables_ok (conn : GraphConn) (simFn : String → String → Nat)
    (fuzzy_threshold : Nat) (keyword : String)
    (h1 : ∃ l, conn.tablesExact keyword = Except.ok l)
    (h2 : ∃ l, conn.tablesAll () = Except.ok l) :
    ∃ v, match_tables conn simFn fuzzy_threshold keyword = Except.ok v := by
  obtain ⟨ex, hex⟩ := h1
  obtain ⟨all, hall⟩ := h2
  rw [match_tables_eq conn simFn fuzzy_threshold keyword ex hex]
  by_cases he : ex.isEmpty
  · rw [if_pos he, hall]
    exact ⟨_, rfl⟩
  · rw [if_neg he]
    exact ⟨_, rfl⟩

theorem match_columns_ok (conn : GraphConn) (simFn : String → String → Nat)
    (fuzzy_threshold : Nat) (keyword : String)
    (h1 : ∃ l, conn.columnsExact keyword = Except.ok l)
    (h2 : ∃ l, conn.columnsAll () = Except.ok l) :
    ∃ v, match_columns conn simFn fuzzy_threshold keyword = Except.ok v := by
  obtain ⟨ex, hex⟩ := h1
  obtain ⟨all, hall⟩ := h2
  rw [match_columns_eq conn simFn fuzzy_threshold keyword ex hex]
  by_cases he : ex.isEmpty
  · rw [if_pos he]
    by_cases hlen : 3 ≤ keyword.length
    · rw [if_pos hlen, hall]
      exact ⟨_, rfl⟩
    · rw [if_neg hlen]
      exact ⟨_, rfl⟩
  · rw [if_neg he]
    exact ⟨_, rfl⟩

theorem match_values_ok (conn : GraphConn) (keyword : String)
    (h : ∃ l, conn.valuesEq keyword = Except.ok l) :
    ∃ v, match_values conn keyword = Except.ok v := by
  obtain ⟨found, hf⟩ := h
  unfold match_values
  rw [hf]
  exact ⟨_, rfl⟩

theorem collectProbe_ok {β : Type} (f : Keyword → Except String (List β)) :
    ∀ ks : List Keyword, (∀ k ∈ ks, ∃ v, f k = Except.ok v) →
      ∃ v, collectProbe f ks = Except.ok v := by
  intro ks
  induction ks with
  | nil => intro _; exact ⟨[], rfl⟩
  | cons k ks ih =>
    intro h
    obtain ⟨v, hv⟩ := h k (by simp)
    obtain ⟨w, hw⟩ := ih (fun x hx => h x (List.mem_cons_of_mem _ hx))
    refine ⟨v ++ w, ?_⟩
    unfold collectProbe
    rw [hv, hw]

/-- Claim C3 counterexample: `match_entities` has no try/except around its catalog
probes, so a single failing table probe (here, for the keyword extracted from the
query `users`) aborts the whole match with the store's error — it does not log,
skip the probe, and return a partial bundle. -/
theorem C3_counterexample :
    match_entities
      (GraphConn.mk (fun _ => Except.error "connection refused")
        (fun _ => Except.ok []) (fun _ => Except.ok []) (fun _ => Except.ok [])
        (fun _ => Except.ok []))
      (fun _ _ => 0) 85 [] none "users" = Except.error "connection refused" := by
  rfl

/-- Claim C3 amended: a catalog probe error during `match_entities` is not caught:
the first failing probe aborts the whole match with that error (see the
counterexample); only when every probe the loop issues succeeds does
`match_entities` return a bundle, which then carries the extracted keywords and
concept matches alongside the per-category results. -/
theorem C3_match_entities_propagation (conn : GraphConn) (simFn : String → String → Nat)
    (fuzzy_threshold : Nat) (concepts : List Concept) (nlp : Option SpacyDoc)
    (query : String)
    (hTblEx : ∀ s, ∃ l, conn.tablesExact s = Except.ok l)
    (hTblAll : ∃ l, conn.tablesAll () = Except.ok l)
    (hColEx : ∀ s, ∃ l, conn.columnsExact s = Except.ok l)
    (hColAll : ∃ l, conn.columnsAll () = Except.ok l)
    (hVal : ∀ s, ∃ l, conn.valuesEq s = Except.ok l) :
    ∃ b, match_entities conn simFn fuzzy_threshold concepts nlp query = Except.ok b ∧
      b.keywords = extract nlp query 15 ∧
      b.concepts = match_concept_to_query concepts query := by
  obtain ⟨ts, hts⟩ := collectProbe_ok
    (fun kw => match_tables conn simFn fuzzy_threshold kw.text) (extract nlp query 15)
    (fun k _ => match_tables_ok conn simFn fuzzy_threshold k.text (hTblEx k.text) hTblAll)
  obtain ⟨cs, hcs⟩ := collectProbe_ok
    (fun kw => match_columns conn simFn fuzzy_threshold kw.text) (extract nlp query 15)
    (fun k _ => match_columns_ok conn simFn fuzzy_threshold k.text (hColEx k.text) hColAll)
  obtain ⟨vs, hvs⟩ := collectProbe_ok
    (fun kw => if valueKeywordTypes.contains kw.type then match_values conn kw.text
      else Except.ok []) (extract nlp query 15)
    (fun k _ => by
      show ∃ v, (if valueKeywordTypes.contains k.type then match_values conn k.text
        else Except.ok []) = Except.ok v
      by_cases hc : valueKeywordTypes.contains k.type
      · rw [if_pos hc]
        exact match_values_ok conn k.text (hVal k.text)
      · rw [if_neg hc]
        exact ⟨[], rfl⟩)
  refine ⟨{ tables := deduplicate_matches tableMatchKey (fun m => m.score) ts,
            columns := deduplicate_matches columnMatchKey (fun m => m.score) cs,
            concepts := match_concept_to_query concepts query,
            values := deduplicate_matches valueMatchKey (fun m => m.score) vs,
            keywords := extract nlp query 15 }, ?_, rfl, rfl⟩
  unfold match_entities
  rw [hts, hcs, hvs]

/-- Witness for C3 at an all-success connector and the query `users`. -/
theorem C3_match_entities_propagation_witness :
    (∀ s : String, ∃ l, (GraphConn.mk (fun _ => Except.ok []) (fun _ => Except.ok [])
        (fun _ => Except.ok []) (fun _ => Except.ok [])
        (fun _ => Except.ok [])).tablesExact s = Except.ok l) ∧
    (∃ b, match_entities (GraphConn.mk (fun _ => Except.ok []) (fun _ => Except.ok [])
        (fun _ => Except.ok []) (fun _ => Except.ok []) (fun _ => Except.ok []))
        (fun _ _ => 0) 85 [] none "users" = Except.ok b ∧
      b.keywords = extract none "users" 15 ∧
      b.concepts = match_concept_to_query [] "users") :=
  ⟨fun _ => ⟨[], rfl⟩,
    C3_match_entities_propagation (GraphConn.mk (fun _ => Except.ok [])
        (fun _ => Except.ok []) (fun _ => Except.ok []) (fun _ => Except.ok [])
        (fun _ => Except.ok []))
      (fun _ _ => 0) 85 [] none "users"
      (fun _ => ⟨[], rfl⟩) ⟨[], rfl⟩ (fun _ => ⟨[], rfl⟩) ⟨[], rfl⟩ (fun _ => ⟨[], rfl⟩)⟩

theorem deduplicate_matches_spec {α : Type} (key : α → String) (score : α → Nat)
    (raw : List α) :
    ((deduplicate_matches key score raw).map key).Nodup ∧
    (deduplicate_matches key score raw).Pairwise (fun a b => score b ≤ score a) ∧
    List.Sublist (dedupByKey key raw) raw ∧
    ∀ s, (deduplicate_matches key score raw).filter (fun m => score m == s) =
      (dedupByKey key raw).filter (fun m => score m == s) := by
  refine ⟨?_, sortDescBy_pairwise _ _, dedupByKey_sublist _ _, ?_⟩
  · exact ((sortDescBy_perm score (dedupByKey key raw)).map key).nodup_iff.mpr
      (dedupByKey_nodup_keys key raw)
  · intro s
    exact sortDescBy_filter score s _

/-- Claim C9: in a successfully returned bundle, the table, column, and value
categories are deduplicated by their identity keys (table name, `table.column`,
`table.column.value`) — no two entries share a key — and each is sorted
non-increasing by score; within each score value, the entries of every one of the
three categories appear exactly in the keep-first deduplication order of that
category's raw probe results, i.e. ties preserve first-seen order (for the value
category, whose entries all score 1.0, this pins the whole list's order). -/
theorem C9_bundle_dedup_sorted (conn : GraphConn) (simFn : String → String → Nat)
    (fuzzy_threshold : Nat) (concepts : List Concept) (nlp : Option SpacyDoc)
    (query : String) (b : MatchBundle)
    (hok : match_entities conn simFn fuzzy_threshold concepts nlp query = Except.ok b) :
    ((b.tables.map tableMatchKey).Nodup ∧
      b.tables.Pairwise (fun a c => c.score ≤ a.score)) ∧
    ((b.columns.map columnMatchKey).Nodup ∧
      b.columns.Pairwise (fun a c => c.score ≤ a.score)) ∧
    ((b.values.map valueMatchKey).Nodup ∧
      b.values.Pairwise (fun a c => c.score ≤ a.score)) ∧
    (∃ raw, collectProbe (fun kw => match_tables conn simFn fuzzy_threshold kw.text)
        (extract nlp query 15) = Except.ok raw ∧
      List.Sublist (dedupByKey tableMatchKey raw) raw ∧
      ∀ s, b.tables.filter (fun m => m.score == s) =
        (dedupByKey tableMatchKey raw).filter (fun m => m.score == s)) ∧
    (∃ raw, collectProbe (fun kw => match_columns conn simFn fuzzy_threshold kw.text)
        (extract nlp query 15) = Except.ok raw ∧
      List.Sublist (dedupByKey columnMatchKey raw) raw ∧
      ∀ s, b.columns.filter (fun m => m.score == s) =
        (dedupByKey columnMatchKey raw).filter (fun m => m.score == s)) ∧
    (∃ raw, collectProbe (fun kw =>
        if valueKeywordTypes.contains kw.type then match_values conn kw.text
        else Except.ok []) (extract nlp query 15) = Except.ok raw ∧
      List.Sublist (dedupByKey valueMatchKey raw) raw ∧
      ∀ s, b.values.filter (fun m => m.score == s) =
        (dedupByKey valueMatchKey raw).filter (fun m => m.score == s)) := by
  unfold match_entities at hok
  cases hts : collectProbe (fun kw => match_tables conn simFn fuzzy_threshold kw.text)
      (extract nlp query 15) with
  | error e => rw [hts] at hok; exact absurd hok (by simp)
  | ok ts =>
    rw [hts] at hok
    cases hcs : collectProbe (fun kw => match_columns conn simFn fuzzy_threshold kw.text)
        (extract nlp query 15) with
    | error e => rw [hcs] at hok; exact absurd hok (by simp)
    | ok cs =>
      rw [hcs] at hok
      cases hvs : collectProbe (fun kw =>
          if valueKeywordTypes.contains kw.type then match_values conn kw.text
          else Except.ok []) (extract nlp query 15) with
      | error e => rw [hvs] at hok; exact absurd hok (by simp)
      | ok vs =>
        rw [hvs] at hok
        simp only [Except.ok.injEq] at hok
        subst hok
        refine ⟨⟨(deduplicate_matches_spec tableMatchKey (fun m => m.score) ts).1,
            (deduplicate_matches_spec tableMatchKey (fun m => m.score) ts).2.1⟩,
          ⟨(deduplicate_matches_spec columnMatchKey (fun m => m.score) cs).1,
            (deduplicate_matches_spec columnMatchKey (fun m => m.score) cs).2.1⟩,
          ⟨(deduplicate_matches_spec valueMatchKey (fun m => m.score) vs).1,
            (deduplicate_matches_spec valueMatchKey (fun m => m.score) vs).2.1⟩,
          ⟨ts, rfl, (deduplicate_matches_spec tableMatchKey (fun m => m.score) ts).2.2.1,
            (deduplicate_matches_spec tableMatchKey (fun m => m.score) ts).2.2.2⟩,
          ⟨cs, rfl, (deduplicate_matches_spec columnMatchKey (fun m => m.score) cs).2.2.1,
            (deduplicate_matches_spec columnMatchKey (fun m => m.score) cs).2.2.2⟩,
          ⟨vs, rfl, (deduplicate_matches_spec valueMatchKey (fun m => m.score) vs).2.2.1,
            (deduplicate_matches_spec valueMatchKey (fun m => m.score) vs).2.2.2⟩⟩

/-- Witness for C9 at an all-empty successful connector and the query `users`. -/
theorem C9_bundle_dedup_sorted_witness :
    match_entities (GraphConn.mk (fun _ => Except.ok []) (fun _ => Except.ok [])
        (fun _ => Except.ok []) (fun _ => Except.ok []) (fun _ => Except.ok []))
      (fun _ _ => 0) 85 [] none "users" =
      Except.ok ⟨[], [], [], [], [⟨"users", "KEYWORD", 60⟩]⟩ ∧
    ((([] : List TableMatch).map tableMatchKey).Nodup ∧
      ([] : List TableMatch).Pairwise (fun a c => c.score ≤ a.score)) :=
  ⟨rfl,
    ((C9_bundle_dedup_sorted (GraphConn.mk (fun _ => Except.ok [])
        (fun _ => Except.ok []) (fun _ => Except.ok []) (fun _ => Except.ok [])
        (fun _ => Except.ok []))
      (fun _ _ => 0) 85 [] none "users" ⟨[], [], [], [], [⟨"users", "KEYWORD", 60⟩]⟩
      rfl).1 : _)⟩

/-! ## Claim C5: keyword extraction post-processing -/

theorem bool_and_split {a b : Bool} (h : (a && b) = true) : a = true ∧ b = true := by
  cases a <;> cases b <;> simp_all

theorem map_text_map_subst (acc : List Keyword) (kw : Keyword) :
    (acc.map (fun e => if e.text == kw.text && decide (e.score < kw.score) then kw
      else e)).map (fun k => k.text) = acc.map (fun k => k.text) := by
  induction acc with
  | nil => rfl
  | cons e es ih =>
    simp only [List.map_cons, ih]
    congr 1
    by_cases hc : (e.text == kw.text && decide (e.score < kw.score)) = true
    · rw [if_pos hc]
      exact (beq_iff_eq.mp (bool_and_split hc).1).symm
    · rw [if_neg hc]

theorem mergeUpd_mem (acc : List Keyword) (kw x : Keyword) (h : x ∈ mergeUpd acc kw) :
    x ∈ acc ∨ x = kw := by
  unfold mergeUpd at h
  by_cases hc : (acc.any (fun e => e.text == kw.text)) = true
  · rw [if_pos hc] at h
    rcases List.mem_map.mp h with ⟨e, he, hex⟩
    by_cases hce : (e.text == kw.text && decide (e.score < kw.score)) = true
    · rw [if_pos hce] at hex
      exact Or.inr hex.symm
    · rw [if_neg hce] at hex
      exact Or.inl (hex ▸ he)
  · rw [if_neg hc] at h
    rcases List.mem_append.mp h with h1 | h2
    · exact Or.inl h1
    · exact Or.inr (List.mem_singleton.mp h2)

theorem mergeUpd_texts_nodup (acc : List Keyword) (kw : Keyword)
    (h : (acc.map (fun k => k.text)).Nodup) :
    ((mergeUpd acc kw).map (fun k => k.text)).Nodup := by
  unfold mergeUpd
  by_cases hc : (acc.any (fun e => e.text == kw.text)) = true
  · rw [if_pos hc, map_text_map_subst]
    exact h
  · rw [if_neg hc, List.map_append]
    rw [List.nodup_append]
    refine ⟨h, List.nodup_singleton _, ?_⟩
    intro t ht hts
    have hteq : t = kw.text := List.mem_singleton.mp hts
    have hf : acc.any (fun e => e.text == kw.text) = false := by
      revert hc
      cases acc.any (fun e => e.text == kw.text) <;> simp
    rcases List.mem_map.mp ht with ⟨e, he, hte⟩
    have := List.any_eq_false.mp hf e he
    apply this
    simp [hte, hteq]

theorem mergeUpd_bound_mono (acc : List Keyword) (kw : Keyword) (t : String) (s : Nat)
    (h : ∃ a ∈ acc, a.text = t ∧ s ≤ a.score) :
    ∃ a ∈ mergeUpd acc kw, a.text = t ∧ s ≤ a.score := by
  obtain ⟨a, ha, hat, has⟩ := h
  unfold mergeUpd
  by_cases hc : (acc.any (fun e => e.text == kw.text)) = true
  · rw [if_pos hc]
    by_cases hca : (a.text == kw.text && decide (a.score < kw.score)) = true
    · refine ⟨kw, List.mem_map.mpr ⟨a, ha, by rw [if_pos hca]⟩, ?_, ?_⟩
      · rw [← beq_iff_eq.mp (bool_and_split hca).1]
        exact hat
      · have hlt := of_decide_eq_true (bool_and_split hca).2
        omega
    · exact ⟨a, List.mem_map.mpr ⟨a, ha, by rw [if_neg hca]⟩, hat, has⟩
  · rw [if_neg hc]
    exact ⟨a, List.mem_append_left _ ha, hat, has⟩

theorem mergeUpd_bound_new (acc : List Keyword) (kw : Keyword) :
    ∃ a ∈ mergeUpd acc kw, a.text = kw.text ∧ kw.score ≤ a.score := by
  unfold mergeUpd
  by_cases hc : (acc.any (fun e => e.text == kw.text)) = true
  · rw [if_pos hc]
    rcases List.any_eq_true.mp hc with ⟨e, he, hbe⟩
    by_cases hce : (e.text == kw.text && decide (e.score < kw.score)) = true
    · exact ⟨kw, List.mem_map.mpr ⟨e, he, by rw [if_pos hce]⟩, rfl, le_refl _⟩
    · refine ⟨e, List.mem_map.mpr ⟨e, he, by rw [if_neg hce]⟩, beq_iff_eq.mp hbe, ?_⟩
      have hge : ¬ e.score < kw.score := by
        intro hlt
        apply hce
        rw [hbe, decide_eq_true hlt]
        rfl
      omega
  · rw [if_neg hc]
    exact ⟨kw, List.mem_append_right _ (List.mem_singleton_self _), rfl, le_refl _⟩

theorem foldl_mergeUpd_mem :
    ∀ (l acc : List Keyword) (x : Keyword), x ∈ l.foldl mergeUpd acc → x ∈ acc ∨ x ∈ l := by
  intro l
  induction l with
  | nil => intro acc x h; exact Or.inl h
  | cons k ks ih =>
    intro acc x h
    rw [List.foldl_cons] at h
    rcases ih (mergeUpd acc k) x h with h1 | h2
    · rcases mergeUpd_mem acc k x h1 with ha | hk
      · exact Or.inl ha
      · exact Or.inr (by rw [hk]; exact List.mem_cons_self _ _)
    · exact Or.inr (List.mem_cons_of_mem _ h2)

theorem foldl_mergeUpd_texts_nodup :
    ∀ (l acc : List Keyword), (acc.map (fun k => k.text)).Nodup →
      ((l.foldl mergeUpd acc).map (fun k => k.text)).Nodup := by
  intro l
  induction l with
  | nil => intro acc h; exact h
  | cons k ks ih =>
    intro acc h
    rw [List.foldl_cons]
    exact ih (mergeUpd acc k) (mergeUpd_texts_nodup acc k h)

theorem foldl_mergeUpd_mono :
    ∀ (l acc : List Keyword) (t : String) (s : Nat),
      (acc.map (fun k => k.text)).Nodup →
      (∃ a ∈ acc, a.text = t ∧ s ≤ a.score) →
      ∀ x ∈ l.foldl mergeUpd acc, x.text = t → s ≤ x.score := by
  intro l
  induction l with
  | nil =>
    intro acc t s hnd hex x hx hxt
    obtain ⟨a, ha, hat, has⟩ := hex
    have hxa : x = a := List.inj_on_of_nodup_map hnd hx ha (by rw [hxt, hat])
    rw [hxa]
    exact has
  | cons k ks ih =>
    intro acc t s hnd hex x hx hxt
    rw [List.foldl_cons] at hx
    exact ih (mergeUpd acc k) t s (mergeUpd_texts_nodup acc k hnd)
      (mergeUpd_bound_mono acc k t s hex) x hx hxt

theorem foldl_mergeUpd_max :
    ∀ (l acc : List Keyword), (acc.map (fun k => k.text)).Nodup →
      ∀ x ∈ l.foldl mergeUpd acc, ∀ c ∈ l, c.text = x.text → c.score ≤ x.score := by
  intro l
  induction l with
  | nil => intro acc _ x _ c hc; simp at hc
  | cons k ks ih =>
    intro acc hnd x hx c hc hct
    rw [List.foldl_cons] at hx
    rcases List.mem_cons.mp hc with rfl | hc'
    · exact foldl_mergeUpd_mono ks (mergeUpd acc c) c.text c.score
        (mergeUpd_texts_nodup acc c hnd) (mergeUpd_bound_new acc c) x hx hct.symm
    · exact ih (mergeUpd acc k) (mergeUpd_texts_nodup acc k hnd) x hx c hc' hct

theorem mergeKeywords_mem (l : List Keyword) (x : Keyword) (h : x ∈ mergeKeywords l) :
    x ∈ l := by
  rcases foldl_mergeUpd_mem l [] x h with h0 | h1
  · simp at h0
  · exact h1

theorem mergeKeywords_texts_nodup (l : List Keyword) :
    ((mergeKeywords l).map (fun k => k.text)).Nodup :=
  foldl_mergeUpd_texts_nodup l [] (by simp)

theorem mergeKeywords_max (l : List Keyword) :
    ∀ x ∈ mergeKeywords l, ∀ c ∈ l, c.text = x.text → c.score ≤ x.score :=
  foldl_mergeUpd_max l [] (by simp)

theorem postprocess_mem (pool : List Keyword) (n : Nat) (k : Keyword)
    (h : k ∈ (sortDescBy (fun kk => kk.score) (mergeKeywords pool)).take n) :
    k ∈ mergeKeywords pool :=
  (sortDescBy_mem _ _ k).mp (List.mem_of_mem_take h)

theorem regex_pool_classify (text : String) :
    ∀ k ∈ regex_keyword_pool text,
      k.type = "NUMBER" ∨ k.type = "TIME" ∨ k.type = "LOCATION" ∨
        should_include k.text = true := by
  intro k hk
  unfold regex_keyword_pool at hk
  rcases List.mem_append.mp hk with hk | heng
  rcases List.mem_append.mp hk with hk | hchi
  rcases List.mem_append.mp hk with hk | hloc
  rcases List.mem_append.mp hk with hnum | htime
  · rcases List.mem_map.mp hnum with ⟨t, -, rfl⟩
    exact Or.inl rfl
  · rcases List.mem_map.mp htime with ⟨t, -, rfl⟩
    exact Or.inr (Or.inl rfl)
  · rcases List.mem_map.mp hloc with ⟨t, -, rfl⟩
    exact Or.inr (Or.inr (Or.inl rfl))
  · rcases List.mem_flatMap.mp hchi with ⟨L, -, hin⟩
    rcases List.mem_map.mp hin with ⟨w, hw, rfl⟩
    exact Or.inr (Or.inr (Or.inr (List.of_mem_filter hw)))
  · rcases List.mem_map.mp heng with ⟨w, hw, rfl⟩
    exact Or.inr (Or.inr (Or.inr (List.of_mem_filter hw)))

theorem spacy_pool_filter (doc : SpacyDoc) :
    ∀ k ∈ spacy_keyword_pool doc, should_include k.text = true := by
  intro k hk
  unfold spacy_keyword_pool at hk
  rcases List.mem_append.mp hk with hk | htok
  rcases List.mem_append.mp hk with hent | hchunk
  · rcases List.mem_filterMap.mp hent with ⟨e, -, heq⟩
    by_cases hc : should_include e.1 = true
    · rw [if_pos hc] at heq
      cases heq
      exact hc
    · rw [if_neg hc] at heq
      cases heq
  · rcases List.mem_filterMap.mp hchunk with ⟨ch, -, heq⟩
    by_cases hc : (should_include (pyStrip ch) && decide ((pyStrip ch).length > 1)) = true
    · rw [if_pos hc] at heq
      cases heq
      exact (bool_and_split hc).1
    · rw [if_neg hc] at heq
      cases heq
  · rcases List.mem_filterMap.mp htok with ⟨tk, -, heq⟩
    by_cases hc : (["NOUN", "PROPN", "VERB", "ADJ"].contains tk.2 &&
        should_include tk.1) = true
    · rw [if_pos hc] at heq
      cases heq
      exact (bool_and_split hc).2
    · rw [if_neg hc] at heq
      cases heq

theorem extract_with_spacy_filter (doc : SpacyDoc) (max_keywords : Nat) :
    ∀ k ∈ extract_with_spacy doc max_keywords, should_include k.text = true := by
  intro k hk
  unfold extract_with_spacy at hk
  exact spacy_pool_filter doc k
    (mergeKeywords_mem _ k (postprocess_mem _ max_keywords k hk))

theorem extract_with_regex_classify (text : String) (max_keywords : Nat) :
    ∀ k ∈ extract_with_regex text max_keywords,
      k.type = "NUMBER" ∨ k.type = "TIME" ∨ k.type = "LOCATION" ∨
        should_include k.text = true := by
  intro k hk
  unfold extract_with_regex at hk
  exact regex_pool_classify text k
    (mergeKeywords_mem _ k (postprocess_mem _ max_keywords k hk))

/-- Claim C5 counterexample: on the text `北京` the location "pattern" — a character
class — matches the single characters `北` and `京`, which bypass the
`_should_include` filter, so `extract` returns an entry whose text is shorter than
2 characters. -/
theorem C5_counterexample :
    (⟨"北", "LOCATION", 85⟩ : Keyword) ∈ extract none "北京" 10 ∧
    ("北" : String).length < 2 :=
  ⟨by decide, by decide⟩

theorem extract_hybrid_spec (spacyList : List Keyword) (text : String)
    (max_keywords : Nat)
    (hsp : ∀ k ∈ spacyList, should_include k.text = true) :
    ((sortDescBy (fun k => k.score) (mergeKeywords
        (spacyList ++ extract_with_regex text max_keywords))).take max_keywords).length ≤
      max_keywords ∧
    ((sortDescBy (fun k => k.score) (mergeKeywords
        (spacyList ++ extract_with_regex text max_keywords))).take max_keywords).Pairwise
      (fun a b => b.score ≤ a.score) ∧
    (((sortDescBy (fun k => k.score) (mergeKeywords
        (spacyList ++ extract_with_regex text max_keywords))).take max_keywords).map
      (fun k => k.text)).Nodup ∧
    (∀ k ∈ (sortDescBy (fun k => k.score) (mergeKeywords
        (spacyList ++ extract_with_regex text max_keywords))).take max_keywords,
      k.type ≠ "NUMBER" → k.type ≠ "TIME" → k.type ≠ "LOCATION" →
        should_include k.text = true) ∧
    (∀ k ∈ (sortDescBy (fun k => k.score) (mergeKeywords
        (spacyList ++ extract_with_regex text max_keywords))).take max_keywords,
      k ∈ spacyList ++ extract_with_regex text max_keywords ∧
      ∀ c ∈ spacyList ++ extract_with_regex text max_keywords,
        c.text = k.text → c.score ≤ k.score) := by
  refine ⟨List.length_take_le _ _, ?_, ?_, ?_, ?_⟩
  · exact (sortDescBy_pairwise _ _).sublist (List.take_sublist _ _)
  · have hnd := mergeKeywords_texts_nodup
      (spacyList ++ extract_with_regex text max_keywords)
    have hfull := ((sortDescBy_perm (fun k => k.score)
      (mergeKeywords (spacyList ++ extract_with_regex text max_keywords))).map
        (fun k => k.text)).nodup_iff.mpr hnd
    exact hfull.sublist ((List.take_sublist _ _).map _)
  · intro k hk h1 h2 h3
    have hmem := mergeKeywords_mem _ k
      (postprocess_mem (spacyList ++ extract_with_regex text max_keywords)
        max_keywords k hk)
    rcases List.mem_append.mp hmem with hspm | hre
    · exact hsp k hspm
    · rcases extract_with_regex_classify text max_keywords k hre with h | h | h | h
      · exact absurd h h1
      · exact absurd h h2
      · exact absurd h h3
      · exact h
  · intro k hk
    have hmerge := postprocess_mem (spacyList ++ extract_with_regex text max_keywords)
      max_keywords k hk
    refine ⟨mergeKeywords_mem _ k hmerge, ?_⟩
    intro c hc hct
    exact mergeKeywords_max (spacyList ++ extract_with_regex text max_keywords)
      k hmerge c hc hct

/-- Claim C5 amended: `extract` merges entries by text keeping the maximum score,
returns pairwise-distinct texts sorted non-increasing by score, truncated to
`max_keywords`; and every returned entry that is not of type NUMBER, TIME, or
LOCATION (the three regex stages that bypass the filter) satisfies the
`_should_include` filter — at least 2 characters after lower/strip, not a stop
word, not a reserved SQL keyword, not pure punctuation. -/
theorem C5_extract_postprocessing (nlp : Option SpacyDoc) (text : String)
    (max_keywords : Nat) :
    (extract nlp text max_keywords).length ≤ max_keywords ∧
    (extract nlp text max_keywords).Pairwise (fun a b => b.score ≤ a.score) ∧
    ((extract nlp text max_keywords).map (fun k => k.text)).Nodup ∧
    (∀ k ∈ extract nlp text max_keywords,
      k.type ≠ "NUMBER" → k.type ≠ "TIME" → k.type ≠ "LOCATION" →
        should_include k.text = true) ∧
    (∀ k ∈ extract nlp text max_keywords,
      k ∈ ((match nlp with
            | some doc => extract_with_spacy doc max_keywords
            | none => []) ++ extract_with_regex text max_keywords) ∧
      ∀ c ∈ ((match nlp with
            | some doc => extract_with_spacy doc max_keywords
            | none => []) ++ extract_with_regex text max_keywords),
        c.text = k.text → c.score ≤ k.score) := by
  cases nlp with
  | none =>
    exact extract_hybrid_spec [] text max_keywords (by intro k hk; simp at hk)
  | some doc =>
    exact extract_hybrid_spec (extract_with_spacy doc max_keywords) text max_keywords
      (extract_with_spacy_filter doc max_keywords)

/-- Witness for C5 at the text `北京`: the keyword entry `北京` is of type KEYWORD
and passes the filter. -/
theorem C5_extract_postprocessing_witness :
    (extract none "北京" 10).length ≤ 10 ∧
    (⟨"北京", "KEYWORD", 60⟩ : Keyword) ∈ extract none "北京" 10 ∧
    should_include "北京" = true :=
  ⟨(C5_extract_postprocessing none "北京" 10).1,
    by decide,
    (C5_extract_postprocessing none "北京" 10).2.2.2.1 ⟨"北京", "KEYWORD", 60⟩
      (by decide) (by decide) (by decide) (by decide)⟩

end GraphText2Sql
